import Mathlib

/-!
Shallow embedding of `src/bin/dag2dot.py` (the pegasus DAG-to-DOT tool).

The Python program keeps a workflow DAG as a dict mapping job id to a `Job`
object holding a display name, an integer level and mutable `parents` /
`children` adjacency lists of object references.  Here the dict becomes an
association list in insertion order, object references become node ids, and
each in-place mutation becomes an explicit update of the association list.
`simplify` additionally builds a synthetic root `Job` that lives outside the
dict; we keep its mutable `children` list as a separate state component and
represent references to it by `none` (a real node id `i` is `some i`).

The worklist loops of the source (`while len(fifo) > 0: n = fifo.pop()` with
`fifo.append`) pop and push at the same end, i.e. they are stacks.  We model
the stack head-first: pushing `c1, ..., ck` in source order and then popping
yields the same pop sequence as Python's append/pop-at-the-tail.  The loops
need not terminate on cyclic inputs, so they take explicit fuel and return
`none` when it runs out; every theorem about a loop is conditioned on the
run having finished.
-/

namespace Dag2Dot

/-- Translated from `class Job` (dag2dot.py lines 31-37).  `parents` entries
are `Option String` because the elimination pass of `simplify` removes and
re-appends the popped node reference, which is the synthetic root (`none`)
when the popped node is it; in every state reachable from a well-formed
input no parents list actually contains `none`. -/
structure Job where
  id : String
  name : String
  level : Nat
  parents : List (Option String)
  children : List String
deriving DecidableEq, Inhabited

/-- The DAG: Python's dict from job id to `Job`, as an association list in
insertion order. -/
abbrev Graph := List (String × Job)

/-- Dict lookup `dag[i]` (first entry with the key; keys are unique in any
state coming from a dict). -/
def find? : Graph → String → Option Job
  | [], _ => none
  | (k, j) :: rest, i => if k = i then some j else find? rest i

/-- The keys of the dict, in insertion order. -/
def keysOf (g : Graph) : List String := g.map Prod.fst

/-- Total lookup; the default is only produced for ids absent from the dict,
which never happens where the source dereferences an object. -/
def getJob (g : Graph) (i : String) : Job := (find? g i).getD default

def levelOfId (g : Graph) (i : String) : Nat := (getJob g i).level

def parentsOfId (g : Graph) (i : String) : List (Option String) := (getJob g i).parents

def childrenOfId (g : Graph) (i : String) : List String := (getJob g i).children

/-- In-place mutation of the object stored under key `i`. -/
def updJob (g : Graph) (i : String) (f : Job → Job) : Graph :=
  g.map (fun p => (p.1, if p.1 = i then f p.2 else p.2))

/-- Dict assignment `dag[j.id] = j`, the node-insertion step of both loaders
(`DAXHandler.startElement`, line 55, and `parse_dagfile`, line 145): a plain
dict store that overwrites any existing entry with the same id. -/
def dagInsert (g : Graph) (j : Job) : Graph :=
  if (find? g j.id).isSome then updJob g j.id (fun _ => j) else g ++ [(j.id, j)]

/-! ### remove_xforms (lines 158-172) -/

/-- Dict deletion `del dag[id]`: drop the entry with the given key (keys
are unique in any dict-derived state). -/
def eraseKey : Graph → String → Graph
  | [], _ => []
  | (k, j) :: rest, i => if k = i then eraseKey rest i else (k, j) :: eraseKey rest i

/-- The body of the `if job.name in xforms` branch of `remove_xforms`
(lines 165-170): for every parent `p` of the job, `p.children.remove(job)`;
for every child `c`, `c.parents.remove(job)`; then `del dag[id]`.  Python's
`list.remove` drops the first occurrence (and the element is present in any
well-formed state, so no `ValueError` arises); a `none` parent entry would
denote the synthetic root, whose children list does not exist at this stage,
and cannot occur in well-formed input. -/
def removeJob (g : Graph) (i : String) (j : Job) : Graph :=
  let g1 := j.parents.foldl (fun g p =>
      match p with
      | some pid => updJob g pid (fun jp => { jp with children := jp.children.erase i })
      | none => g) g
  let g2 := j.children.foldl (fun g c =>
      updJob g c (fun jc => { jc with parents := jc.parents.erase (some i) })) g1
  eraseKey g2 i

/-- One iteration of the `for id in dag.keys()` loop of `remove_xforms`
(lines 163-170): look the id up and delete the job if its name is excluded. -/
def removeStep (xforms : List String) (g : Graph) (id : String) : Graph :=
  match find? g id with
  | none => g
  | some job => if job.name ∈ xforms then removeJob g id job else g

/-- Translated from `remove_xforms(dag, xforms)` (lines 158-172).  Python 2's
`dag.keys()` returns a fresh list, so the iteration runs over a snapshot of
the keys while entries are deleted; a deleted key can never be revisited
because dict keys are unique, so the `find?`-misses branch is unreachable. -/
def remove_xforms (g : Graph) (xforms : List String) : Graph :=
  if xforms.isEmpty then g
  else (keysOf g).foldl (removeStep xforms) g

/-! ### simplify (lines 190-239) and inv_reachable (lines 174-188) -/

/-- Working state of `simplify`: the synthetic root's mutable `children`
list (the root `Job` itself lives outside the dict, lines 205-211) plus the
dict. -/
structure SimpSt where
  rootChildren : List String
  g : Graph
deriving DecidableEq, Inhabited

/-- `n.children` for a popped reference (`none` is the synthetic root). -/
def childrenOfRef (st : SimpSt) : Option String → List String
  | none => st.rootChildren
  | some i => childrenOfId st.g i

/-- `n.level` for a popped reference; the synthetic root's level is 0 and is
never written. -/
def levelOfRef (st : SimpSt) : Option String → Nat
  | none => 0
  | some i => levelOfId st.g i

/-- `n.parents` for a reference; the synthetic root has no parents. -/
def parentsOfRef (g : Graph) : Option String → List (Option String)
  | none => []
  | some i => parentsOfId g i

/-- Roots: `len(j.parents) == 0`, collected in dict order (lines 199-203). -/
def rootsOf (g : Graph) : List String :=
  (g.filter (fun p => p.2.parents.isEmpty)).map Prod.fst

/-- One relaxation `c.level = max(c.level, n.level + 1)` (line 219). -/
def relaxLevel (g : Graph) (c : String) (lvl : Nat) : Graph :=
  updJob g c (fun j => { j with level := max j.level lvl })

/-- The inner `for c in n.children` of the level pass (lines 217-219):
every child is relaxed to at least `lvl` (the pushes are accounted for by
the caller). -/
def relaxChildren (g : Graph) (cs : List String) (lvl : Nat) : Graph :=
  cs.foldl (fun g c => relaxLevel g c lvl) g

/-- The level-assignment worklist loop (lines 214-219).  Popping `n` pushes
all of `n.children` and relaxes each child's level; the pushed children are
popped most-recently-pushed first, as in the source. -/
def levelLoop : Nat → SimpSt → List (Option String) → Option SimpSt
  | 0, _, _ => none
  | _ + 1, st, [] => some st
  | fuel + 1, st, r :: stack =>
      let cs := childrenOfRef st r
      let lvl := levelOfRef st r
      levelLoop fuel ⟨st.rootChildren, relaxChildren st.g cs (lvl + 1)⟩
        ((cs.reverse.map some) ++ stack)

/-- The level pass of `simplify`: find the roots, hang them under the
synthetic root (level 0) and run the worklist from `[root]`
(lines 198-219). -/
def levelPhase (F : Nat) (g : Graph) : Option SimpSt :=
  levelLoop F ⟨rootsOf g, g⟩ [none]

/-- Translated from `inv_reachable(a, b)` (lines 174-188): a walk over
parent links from the stack; returns true as soon as `b` is found among the
parents of a popped node (the source compares object references, here
represented by the `Option String` ids). -/
def inv_reachable : Nat → Graph → List (Option String) → Option String → Option Bool
  | 0, _, _, _ => none
  | _ + 1, _, [], _ => some false
  | fuel + 1, g, a :: stack, b =>
      let ps := parentsOfRef g a
      if b ∈ ps then some true
      else inv_reachable fuel g (ps.reverse ++ stack) b

/-- `c.parents.remove(n)` (line 230). -/
def removeParentEntry (g : Graph) (c : String) (n : Option String) : Graph :=
  updJob g c (fun j => { j with parents := j.parents.erase n })

/-- `c.parents.append(n)` (line 237). -/
def addParentEntry (g : Graph) (c : String) (n : Option String) : Graph :=
  updJob g c (fun j => { j with parents := j.parents ++ [n] })

/-- `n.children.remove(c)` for a real node `n` (line 234). -/
def removeChildEntry (g : Graph) (n c : String) : Graph :=
  updJob g n (fun j => { j with children := j.children.erase c })

/-- One edge decision of the elimination loop (lines 227-237), for popped
node `n` and child `c` (the push of `c` is accounted for by the caller):
`dist = c.level - n.level`; if `dist > 1`, tentatively `c.parents.remove(n)`,
then keep the deletion if `inv_reachable(c, n)` (also erasing `c` from
`n.children`) and restore the parent entry otherwise. -/
def elimChild (F : Nat) (st : SimpSt) (n : Option String) (c : String) : Option SimpSt :=
  let dist : Int := (levelOfId st.g c : Int) - (levelOfRef st n : Int)
  if 1 < dist then
    let g1 := removeParentEntry st.g c n
    match inv_reachable F g1 [some c] n with
    | none => none
    | some true =>
        some (match n with
          | none => { rootChildren := st.rootChildren.erase c, g := g1 }
          | some a => { st with g := removeChildEntry g1 a c })
    | some false => some { st with g := addParentEntry g1 c n }
  else some st

/-- The inner `for c in children` of the elimination pass, over the snapshot
`children = n.children[:]` (lines 226-237). -/
def elimChildren (F : Nat) (n : Option String) : SimpSt → List String → Option SimpSt
  | st, [] => some st
  | st, c :: cs =>
      match elimChild F st n c with
      | none => none
      | some st1 => elimChildren F n st1 cs

/-- The redundant-edge-elimination worklist loop (lines 222-237): popping
`n` snapshots its children, decides each child edge in order, and pushes the
whole snapshot. -/
def elimLoop : Nat → SimpSt → List (Option String) → Option SimpSt
  | 0, _, _ => none
  | _ + 1, st, [] => some st
  | fuel + 1, st, n :: stack =>
      let cs := childrenOfRef st n
      match elimChildren fuel n st cs with
      | none => none
      | some st1 => elimLoop fuel st1 ((cs.reverse.map some) ++ stack)

/-- Translated from `simplify(dag)` (lines 190-239): the level pass followed
by the elimination pass, both seeded with the synthetic root; the root is
discarded and the dict is returned. -/
def simplify (F : Nat) (dag : Graph) : Option Graph :=
  match levelPhase F dag with
  | none => none
  | some st1 =>
      match elimLoop F st1 [none] with
      | none => none
      | some st2 => some st2.g

/-! ### emit_dot color assignment (lines 8-29 and 259-270) -/

/-- Translated from the `COLORS` table (lines 8-29). -/
def COLORS : List String :=
  ["#1b9e77", "#d95f02", "#7570b3", "#e7298a", "#66a61e", "#e6ab02", "#a6761d",
   "#666666", "#8dd3c7", "#bebada", "#fb8072", "#80b1d3", "#fdb462", "#b3de69",
   "#fccde5", "#d9d9d9", "#bc80bd", "#ccebc5", "#ffed6f", "#ffffb3"]

/-- Lookup in the `xforms` color dict of `emit_dot`. -/
def lookupName : List (String × Nat) → String → Option Nat
  | [], _ => none
  | (k, v) :: rest, nm => if k = nm then some v else lookupName rest nm

/-- One node's color bookkeeping in `emit_dot` (lines 266-268):
`if j.name not in xforms: xforms[j.name] = next_color; next_color += 1`. -/
def colorFoldStep (acc : List (String × Nat) × Nat) (nm : String) :
    List (String × Nat) × Nat :=
  match lookupName acc.1 nm with
  | some _ => acc
  | none => (acc.1 ++ [(nm, acc.2)], acc.2 + 1)

/-- The `xforms` dict after the node loop of `emit_dot`: names in first-seen
dict order bound to `0, 1, 2, ...` with no wraparound. -/
def colorTable (g : Graph) : List (String × Nat) :=
  (g.foldl (fun acc p => colorFoldStep acc p.2.name) ([], 0)).1

/-- `color = xforms[j.name]` (line 269). -/
def colorIndexOf (g : Graph) (nm : String) : Option Nat :=
  lookupName (colorTable g) nm

/-- `COLORS[color]` (line 270); `none` is Python's `IndexError` case. -/
def colorOf (g : Graph) (nm : String) : Option String :=
  match colorIndexOf g nm with
  | none => none
  | some k => COLORS.get? k

/-! ### Derived relations and well-formedness -/

/-- `p` is recorded as a parent of `c` (an entry of `c.parents`). -/
def parentRel (g : Graph) (p c : String) : Prop :=
  ∃ j, find? g c = some j ∧ some p ∈ j.parents

/-- `c` is recorded as a child of `p` (an entry of `p.children`); this is
the edge relation of the DAG. -/
def childRel (g : Graph) (p c : String) : Prop :=
  ∃ j, find? g p = some j ∧ c ∈ j.children

/-- Reachability along one or more child-direction edges. -/
inductive Reaches (g : Graph) : String → String → Prop where
  | base : childRel g a b → Reaches g a b
  | step : childRel g a x → Reaches g x b → Reaches g a b

/-- The graph has no directed cycle. -/
def Acyclic (g : Graph) : Prop := ∀ i, ¬ Reaches g i i

/-- Reachability along one or more parent-direction entries, starting and
ending at node references; this is the walk `inv_reachable` performs. -/
inductive UpReach (g : Graph) : Option String → Option String → Prop where
  | base : b ∈ parentsOfRef g a → UpReach g a b
  | step : some x ∈ parentsOfRef g a → UpReach g (some x) b → UpReach g a b

/-- Well-formedness of a loaded graph: unique keys, each `Job` stores its
own key as `id`, duplicate-free adjacency, no reference to the (not yet
existing) synthetic root, adjacency closed under the key set, bidirectional
parent/child consistency, and no self-loop. -/
structure WF (g : Graph) : Prop where
  keysNodup : (keysOf g).Nodup
  idMatch : ∀ i j, find? g i = some j → j.id = i
  parentsNodup : ∀ i j, find? g i = some j → j.parents.Nodup
  childrenNodup : ∀ i j, find? g i = some j → j.children.Nodup
  noRootRef : ∀ i j, find? g i = some j → none ∉ j.parents
  parentsClosed : ∀ i j p, find? g i = some j → some p ∈ j.parents → (find? g p).isSome
  childrenClosed : ∀ i j c, find? g i = some j → c ∈ j.children → (find? g c).isSome
  consistent : ∀ p c, parentRel g p c ↔ childRel g p c
  noSelfLoop : ∀ i, ¬ childRel g i i

/-- Every level is 0, as produced by both loaders (`Job.__init__`). -/
def InitLevels (g : Graph) : Prop := ∀ i j, find? g i = some j → j.level = 0

/-- A node with an empty parents list. -/
def isRoot (g : Graph) (i : String) : Prop :=
  ∃ j, find? g i = some j ∧ j.parents = []

/-- `RootPath g i k`: there is a path of `k` edges from some zero-in-degree
node of `g` to `i`. -/
inductive RootPath (g : Graph) : String → Nat → Prop where
  | zero : isRoot g i → RootPath g i 0
  | succ : RootPath g p k → childRel g p c → RootPath g c (k + 1)

/-! ### Association-list lemmas -/

theorem find?_updJob (g : Graph) (i : String) (f : Job → Job) (i' : String) :
    find? (updJob g i f) i' = if i' = i then (find? g i).map f else find? g i' := by
  induction g with
  | nil => simp [updJob, find?]
  | cons hd tl ih =>
    obtain ⟨k, j⟩ := hd
    simp only [updJob, List.map_cons] at ih ⊢
    by_cases hki : k = i'
    · subst hki
      by_cases hk : k = i
      · subst hk; simp [find?]
      · simp [find?, hk, Ne.symm hk]
    · by_cases hk : i' = i
      · subst hk
        by_cases hki2 : k = i'
        · exact absurd hki2 hki
        · simp [find?, hki, ih]
      · simp [find?, hki, hk, ih]

theorem keysOf_updJob (g : Graph) (i : String) (f : Job → Job) :
    keysOf (updJob g i f) = keysOf g := by
  simp [keysOf, updJob, List.map_map, Function.comp]

theorem find?_mem {g : Graph} {i : String} {j : Job} (h : find? g i = some j) :
    (i, j) ∈ g := by
  induction g with
  | nil => simp [find?] at h
  | cons hd tl ih =>
    obtain ⟨k, j'⟩ := hd
    by_cases hk : k = i
    · subst hk
      simp [find?] at h
      simp [h]
    · simp [find?, hk] at h
      exact List.mem_cons_of_mem _ (ih h)

theorem find?_isSome_iff {g : Graph} {i : String} :
    (find? g i).isSome ↔ i ∈ keysOf g := by
  induction g with
  | nil => simp [find?, keysOf]
  | cons hd tl ih =>
    obtain ⟨k, j⟩ := hd
    by_cases hk : k = i
    · subst hk; simp [find?, keysOf]
    · simp [find?, keysOf, hk, Ne.symm hk, ih]

theorem find?_eq_none_iff {g : Graph} {i : String} :
    find? g i = none ↔ i ∉ keysOf g := by
  rw [← find?_isSome_iff, Option.not_isSome_iff_eq_none]

theorem find?_append (g1 g2 : Graph) (i : String) :
    find? (g1 ++ g2) i = ((find? g1 i).or (find? g2 i)) := by
  induction g1 with
  | nil => simp [find?]
  | cons hd tl ih =>
    obtain ⟨k, j⟩ := hd
    by_cases hk : k = i <;> simp [find?, hk, ih]

theorem parentsOfId_none {g : Graph} {i : String} (h : find? g i = none) :
    parentsOfId g i = [] := by
  unfold parentsOfId getJob
  rw [h]
  rfl

theorem parentsOfId_some {g : Graph} {i : String} {j : Job} (h : find? g i = some j) :
    parentsOfId g i = j.parents := by
  unfold parentsOfId getJob
  rw [h]
  rfl

theorem childrenOfId_some {g : Graph} {i : String} {j : Job} (h : find? g i = some j) :
    childrenOfId g i = j.children := by
  unfold childrenOfId getJob
  rw [h]
  rfl

theorem levelOfId_some {g : Graph} {i : String} {j : Job} (h : find? g i = some j) :
    levelOfId g i = j.level := by
  unfold levelOfId getJob
  rw [h]
  rfl

theorem levelOfId_none {g : Graph} {i : String} (h : find? g i = none) :
    levelOfId g i = 0 := by
  unfold levelOfId getJob
  rw [h]
  rfl

/-! ### Concrete example graphs -/

/-- A single isolated node `A`. -/
def exSingle : Graph := [("A", { id := "A", name := "A", level := 0, parents := [], children := [] })]

/-- The diamond with shortcut: edges `A→B, A→C, B→D, C→D, A→D`
(the spec's diamond scenario), names equal to ids, all levels 0. -/
def exDiamond : Graph :=
  [("A", { id := "A", name := "A", level := 0, parents := [], children := ["B", "C", "D"] }),
   ("B", { id := "B", name := "B", level := 0, parents := [some "A"], children := ["D"] }),
   ("C", { id := "C", name := "C", level := 0, parents := [some "A"], children := ["D"] }),
   ("D", { id := "D", name := "D", level := 0, parents := [some "B", some "C", some "A"], children := [] })]

/-- The chain `A→B→C` of the spec's filter scenario. -/
def exChain : Graph :=
  [("A", { id := "A", name := "A", level := 0, parents := [], children := ["B"] }),
   ("B", { id := "B", name := "B", level := 0, parents := [some "A"], children := ["C"] }),
   ("C", { id := "C", name := "C", level := 0, parents := [some "B"], children := [] })]

/-- Twenty-one isolated nodes with pairwise distinct names. -/
def exManyNames : Graph :=
  ["a", "b", "c", "d", "e", "f", "g", "h", "i", "j", "k", "l", "m", "n", "o",
   "p", "q", "r", "s", "t", "u"].map
    (fun nm => (nm, { id := nm, name := nm, level := 0, parents := [], children := [] }))

/-! ### Color assignment (claim C8) -/

theorem lookupName_eq_none_iff (t : List (String × Nat)) (nm : String) :
    lookupName t nm = none ↔ nm ∉ t.map Prod.fst := by
  induction t with
  | nil => simp [lookupName]
  | cons hd tl ih =>
    obtain ⟨k, v⟩ := hd
    by_cases hk : k = nm
    · subst hk; simp [lookupName]
    · simp [lookupName, hk, Ne.symm hk, ih]

theorem lookupName_mem {t : List (String × Nat)} {nm : String} {k : Nat}
    (h : lookupName t nm = some k) : (nm, k) ∈ t := by
  induction t with
  | nil => simp [lookupName] at h
  | cons hd tl ih =>
    obtain ⟨k', v⟩ := hd
    by_cases hk : k' = nm
    · subst hk
      simp [lookupName] at h
      simp [h]
    · simp [lookupName, hk] at h
      exact List.mem_cons_of_mem _ (ih h)

theorem colorFold_inv (ns : List String) (acc : List (String × Nat) × Nat)
    (hlen : acc.2 = acc.1.length)
    (hnd : (acc.1.map Prod.fst).Nodup)
    (hval : ∀ kv ∈ acc.1, kv.2 < acc.1.length) :
    (ns.foldl colorFoldStep acc).2 = (ns.foldl colorFoldStep acc).1.length ∧
    (((ns.foldl colorFoldStep acc).1.map Prod.fst).Nodup) ∧
    (∀ kv ∈ (ns.foldl colorFoldStep acc).1, kv.2 < (ns.foldl colorFoldStep acc).1.length) ∧
    (∀ nm, nm ∈ (ns.foldl colorFoldStep acc).1.map Prod.fst ↔
      nm ∈ acc.1.map Prod.fst ∨ nm ∈ ns) := by
  induction ns generalizing acc with
  | nil => exact ⟨hlen, hnd, hval, fun nm => by simp⟩
  | cons hd tl ih =>
    simp only [List.foldl_cons]
    rcases hcase : lookupName acc.1 hd with _ | v
    · have hnotin : hd ∉ acc.1.map Prod.fst := (lookupName_eq_none_iff _ _).mp hcase
      have hstep : colorFoldStep acc hd = (acc.1 ++ [(hd, acc.2)], acc.2 + 1) := by
        simp [colorFoldStep, hcase]
      rw [hstep]
      have hlen' : (acc.1 ++ [(hd, acc.2)]).length = acc.1.length + 1 := by simp
      obtain ⟨h1, h2, h3, h4⟩ := ih (acc.1 ++ [(hd, acc.2)], acc.2 + 1)
        (by simp [hlen])
        (by simp [List.nodup_append, hnd, hnotin])
        (by
          intro kv hkv
          rw [hlen']
          rcases List.mem_append.mp hkv with hold | hnew
          · exact Nat.lt_succ_of_lt (hval kv hold)
          · simp at hnew
            simp [hnew, hlen])
      refine ⟨h1, h2, h3, fun nm => ?_⟩
      rw [h4 nm]
      simp only [List.map_append, List.mem_append, List.map_cons, List.mem_cons]
      constructor
      · rintro (h | h)
        · rcases h with h | h
          · exact Or.inl h
          · simp at h
            exact Or.inr (Or.inl h)
        · exact Or.inr (Or.inr h)
      · rintro (h | h | h)
        · exact Or.inl (Or.inl h)
        · exact Or.inl (Or.inr (by simp [h]))
        · exact Or.inr h
    · have hstep : colorFoldStep acc hd = acc := by simp [colorFoldStep, hcase]
      rw [hstep]
      have hdin : hd ∈ acc.1.map Prod.fst :=
        List.mem_map.mpr ⟨(hd, v), lookupName_mem hcase, rfl⟩
      obtain ⟨h1, h2, h3, h4⟩ := ih acc hlen hnd hval
      refine ⟨h1, h2, h3, fun nm => ?_⟩
      rw [h4 nm]
      constructor
      · rintro (h | h)
        · exact Or.inl h
        · exact Or.inr (List.mem_cons_of_mem _ h)
      · rintro (h | h)
        · exact Or.inl h
        · rcases List.mem_cons.mp h with h | h
          · subst h; exact Or.inl hdin
          · exact Or.inr h

theorem get?_isSome_of_lt {α : Type} (l : List α) (k : Nat) (h : k < l.length) :
    (l.get? k).isSome := by
  induction l generalizing k with
  | nil => simp at h
  | cons hd tl ih =>
    cases k with
    | zero => simp [List.get?]
    | succ n =>
      simp only [List.get?]
      exact ih n (by simpa using Nat.lt_of_succ_lt_succ h)

theorem colorTable_eq_fold (g : Graph) :
    colorTable g = ((g.map (fun p => p.2.name)).foldl colorFoldStep ([], 0)).1 := by
  rw [colorTable, List.foldl_map]

theorem colorTable_facts (g : Graph) :
    ((colorTable g).map Prod.fst).Nodup ∧
    (∀ kv ∈ colorTable g, kv.2 < (colorTable g).length) ∧
    (∀ nm, nm ∈ (colorTable g).map Prod.fst ↔ nm ∈ g.map (fun p => p.2.name)) := by
  rw [colorTable_eq_fold]
  obtain ⟨_, h2, h3, h4⟩ :=
    colorFold_inv (g.map (fun p => p.2.name)) ([], 0) rfl (by simp) (by simp)
  exact ⟨h2, h3, fun nm => by rw [h4 nm]; simp⟩

theorem colorTable_length_le (g : Graph) :
    (colorTable g).length ≤ (g.map (fun p => p.2.name)).toFinset.card := by
  obtain ⟨hnd, _, hmem⟩ := colorTable_facts g
  have hsub : ((colorTable g).map Prod.fst).toFinset ⊆
      (g.map (fun p => p.2.name)).toFinset := by
    intro nm hin
    rw [List.mem_toFinset] at hin ⊢
    exact (hmem nm).mp hin
  calc (colorTable g).length = ((colorTable g).map Prod.fst).length := by simp
    _ = ((colorTable g).map Prod.fst).toFinset.card := (List.toFinset_card_of_nodup hnd).symm
    _ ≤ (g.map (fun p => p.2.name)).toFinset.card := Finset.card_le_card hsub

/-- Claim C8 (amended): `emit_dot`'s color assignment binds each distinct
label, the first time it is seen, to the next unused palette index with no
wraparound; whenever the number of distinct labels is at most the palette
size (20), every node's palette lookup is in bounds, and nodes sharing a
label always receive the same color. -/
theorem emit_colors_in_bounds_of_few_labels (g : Graph)
    (h : (g.map (fun p => p.2.name)).toFinset.card ≤ COLORS.length) :
    (∀ i j, find? g i = some j → (colorOf g j.name).isSome) ∧
    (∀ i i' j j', find? g i = some j → find? g i' = some j' → j.name = j'.name →
      colorOf g j.name = colorOf g j'.name) := by
  constructor
  · intro i j hij
    obtain ⟨hnd, hbound, hmem⟩ := colorTable_facts g
    have hname : j.name ∈ g.map (fun p => p.2.name) :=
      List.mem_map.mpr ⟨(i, j), find?_mem hij, rfl⟩
    have hkey : j.name ∈ (colorTable g).map Prod.fst := (hmem j.name).mpr hname
    rcases hlook : lookupName (colorTable g) j.name with _ | k
    · exact absurd ((lookupName_eq_none_iff _ _).mp hlook) (not_not_intro hkey)
    · have hk : k < (colorTable g).length := hbound _ (lookupName_mem hlook)
      have hklt : k < COLORS.length := lt_of_lt_of_le hk (le_trans (colorTable_length_le g) h)
      simp only [colorOf, colorIndexOf, hlook]
      exact get?_isSome_of_lt COLORS k hklt
  · intro i i' j j' _ _ hnm
    rw [hnm]

/-- Claim C8 counterexample: on a graph with 21 distinct labels the 21st
label is bound to palette index 20, which is out of bounds for the 20-entry
palette — the lookup fails (Python raises `IndexError`), so it is not
"always in bounds no matter how many distinct labels the graph contains". -/
theorem emit_colors_out_of_bounds_cex :
    (find? exManyNames "u").isSome ∧ colorIndexOf exManyNames "u" = some 20 ∧
      colorOf exManyNames "u" = none := by
  refine ⟨by decide, by decide, by decide⟩

/-- Witness for `emit_colors_in_bounds_of_few_labels` at the diamond graph,
which has four distinct labels. -/
theorem emit_colors_in_bounds_witness :
    ((exDiamond.map (fun p => p.2.name)).toFinset.card ≤ COLORS.length) ∧
    (∀ i j, find? exDiamond i = some j → (colorOf exDiamond j.name).isSome) ∧
    (∀ i i' j j', find? exDiamond i = some j → find? exDiamond i' = some j' →
      j.name = j'.name → colorOf exDiamond j.name = colorOf exDiamond j'.name) := by
  refine ⟨by decide, (emit_colors_in_bounds_of_few_labels exDiamond (by decide)).1,
    (emit_colors_in_bounds_of_few_labels exDiamond (by decide)).2⟩

/-! ### Loader duplicate handling (claim C9) -/

/-- Claim C9 (amended): a duplicate job declaration does not fail — there is
no `DuplicateNodeError` anywhere in the program; the dict store
`dag[job.id] = job` silently replaces the existing node, keeping the key
set unchanged. -/
theorem dagInsert_duplicate_overwrites (g : Graph) (j : Job)
    (h : (find? g j.id).isSome) :
    find? (dagInsert g j) j.id = some j ∧ keysOf (dagInsert g j) = keysOf g := by
  constructor
  · simp only [dagInsert, if_pos h, find?_updJob, if_pos rfl]
    obtain ⟨j0, hj0⟩ := Option.isSome_iff_exists.mp h
    rw [hj0]
    rfl
  · simp [dagInsert, if_pos h, keysOf_updJob]

/-- The two jobs of the duplicate-insertion counterexample. -/
def jobAx : Job := { id := "a", name := "x", level := 0, parents := [], children := [] }

def jobAy : Job := { id := "a", name := "y", level := 0, parents := [], children := [] }

/-- Claim C9 counterexample: inserting a second job with the already-present
id "a" succeeds and silently replaces the first job (the name changes from
"x" to "y"); no failure of any kind occurs, contradicting the claimed
`DuplicateNodeError`. -/
theorem dagInsert_duplicate_cex :
    find? (dagInsert [("a", jobAx)] jobAy) "a" = some jobAy ∧ jobAy.name ≠ jobAx.name := by
  refine ⟨by decide, by decide⟩

/-- Witness for `dagInsert_duplicate_overwrites` at a concrete one-node
graph. -/
theorem dagInsert_duplicate_overwrites_witness :
    (find? [("a", jobAx)] jobAy.id).isSome ∧
    (find? (dagInsert [("a", jobAx)] jobAy) jobAy.id = some jobAy ∧
      keysOf (dagInsert [("a", jobAx)] jobAy) = keysOf [("a", jobAx)]) := by
  exact ⟨by decide, dagInsert_duplicate_overwrites [("a", jobAx)] jobAy (by decide)⟩

/-! ### Filter scenario (claim C6) -/

/-- Claim C6: on the chain `A→B→C`, filtering out the node named "B" yields
exactly the node set {A, C} with empty adjacency on both sides — zero edges,
and in particular no synthesized transitive edge A→C. -/
theorem remove_xforms_chain_exact :
    remove_xforms exChain ["B"] =
      [("A", { id := "A", name := "A", level := 0, parents := [], children := [] }),
       ("C", { id := "C", name := "C", level := 0, parents := [], children := [] })] := by
  decide

/-! ### remove_xforms theory (claims C5, C7) -/

theorem foldl_updJob_char (L : List String) (f : Job → Job) :
    ∀ (g : Graph) (x : String), L.Nodup →
      find? (L.foldl (fun g c => updJob g c f) g) x =
        if x ∈ L then (find? g x).map f else find? g x := by
  induction L with
  | nil => intro g x _; simp
  | cons c tl ih =>
    intro g x hnd
    obtain ⟨hc, htl⟩ := List.nodup_cons.mp hnd
    simp only [List.foldl_cons]
    rw [ih (updJob g c f) x htl]
    by_cases hx : x ∈ tl
    · have hxc : x ≠ c := fun h => hc (h ▸ hx)
      rw [find?_updJob]
      simp [hx, hxc]
    · rw [find?_updJob]
      by_cases hxc : x = c
      · subst hxc; simp [hx]
      · simp [hx, hxc]

theorem foldl_updJobOpt_char (L : List (Option String)) (f : Job → Job) :
    ∀ (g : Graph) (x : String), L.Nodup →
      find? (L.foldl (fun g p =>
          match p with
          | some pid => updJob g pid f
          | none => g) g) x =
        if some x ∈ L then (find? g x).map f else find? g x := by
  induction L with
  | nil => intro g x _; simp
  | cons p tl ih =>
    intro g x hnd
    obtain ⟨hp, htl⟩ := List.nodup_cons.mp hnd
    simp only [List.foldl_cons]
    rcases p with _ | c
    · rw [ih g x htl]
      simp [List.mem_cons]
    · rw [ih (updJob g c f) x htl]
      by_cases hx : some x ∈ tl
      · have hxc : x ≠ c := fun h => hp (by simp [h] at hx ⊢; exact hx)
        rw [find?_updJob]
        simp [hx, hxc]
      · rw [find?_updJob]
        by_cases hxc : x = c
        · subst hxc; simp [hx]
        · simp [hx, hxc]

theorem find?_eraseKey (g : Graph) (i x : String) :
    find? (eraseKey g i) x = if x = i then none else find? g x := by
  induction g with
  | nil => simp [find?, eraseKey]
  | cons hd tl ih =>
    obtain ⟨k, j⟩ := hd
    simp only [eraseKey]
    by_cases hk : k = i
    · rw [if_pos hk, ih]
      by_cases hx : x = i
      · simp [hx]
      · have hkx : k ≠ x := fun h => hx (by rw [← h, hk])
        simp [find?, hx, hkx]
    · rw [if_neg hk]
      simp only [find?]
      by_cases hkx : k = x
      · subst hkx
        rw [if_pos rfl, if_neg (fun h => hk h), if_pos rfl]
      · rw [if_neg hkx, ih]
        by_cases hx : x = i <;> simp [hx, hkx]

theorem eraseKey_sublist (g : Graph) (i : String) : (eraseKey g i).Sublist g := by
  induction g with
  | nil => simp [eraseKey]
  | cons hd tl ih =>
    obtain ⟨k, j⟩ := hd
    simp only [eraseKey]
    by_cases hk : k = i
    · rw [if_pos hk]
      exact ih.cons _
    · rw [if_neg hk]
      exact ih.cons₂ _

theorem mem_keysOf_eraseKey {g : Graph} {i x : String} :
    x ∈ keysOf (eraseKey g i) ↔ x ≠ i ∧ x ∈ keysOf g := by
  rw [← find?_isSome_iff, ← find?_isSome_iff, find?_eraseKey]
  by_cases hx : x = i <;> simp [hx]

theorem keysOf_eraseKey_nodup {g : Graph} (i : String) (h : (keysOf g).Nodup) :
    (keysOf (eraseKey g i)).Nodup :=
  ((eraseKey_sublist g i).map Prod.fst).nodup h

/-- The effect of `removeJob g i j` on every lookup: the entry `i` is gone;
any other node loses `i` from its children if it was a parent of `i`, and
loses `i` from its parents if it was a child of `i`. -/
theorem find?_removeJob (g : Graph) (i : String) (j : Job)
    (hpnd : j.parents.Nodup) (hcnd : j.children.Nodup) (x : String) :
    find? (removeJob g i j) x =
      if x = i then none
      else (find? g x).map (fun jx =>
        { jx with
          parents := if x ∈ j.children then jx.parents.erase (some i) else jx.parents,
          children := if some x ∈ j.parents then jx.children.erase i else jx.children }) := by
  simp only [removeJob]
  rw [find?_eraseKey]
  by_cases hx : x = i
  · simp [hx]
  · simp only [hx, if_neg hx]
    rw [foldl_updJob_char _ _ _ _ hcnd, foldl_updJobOpt_char _ _ _ _ hpnd]
    by_cases hxc : x ∈ j.children <;> by_cases hxp : some x ∈ j.parents <;>
      rcases hfind : find? g x with _ | jx <;>
        simp [hxc, hxp, hfind]

theorem keysOf_foldl_updJobOpt (L : List (Option String)) (f : Job → Job) :
    ∀ g : Graph, keysOf (L.foldl (fun g p =>
        match p with
        | some pid => updJob g pid f
        | none => g) g) = keysOf g := by
  induction L with
  | nil => intro g; rfl
  | cons p tl ih =>
    intro g
    rcases p with _ | pid <;> simp only [List.foldl_cons] <;> rw [ih]
    rw [keysOf_updJob]

theorem keysOf_foldl_updJob (L : List String) (f : Job → Job) :
    ∀ g : Graph, keysOf (L.foldl (fun g c => updJob g c f) g) = keysOf g := by
  induction L with
  | nil => intro g; rfl
  | cons c tl ih =>
    intro g
    simp only [List.foldl_cons]
    rw [ih, keysOf_updJob]

theorem mem_keysOf_removeJob {g : Graph} {i : String} {j : Job} {x : String} :
    x ∈ keysOf (removeJob g i j) ↔ x ≠ i ∧ x ∈ keysOf g := by
  simp only [removeJob]
  rw [mem_keysOf_eraseKey, keysOf_foldl_updJob, keysOf_foldl_updJobOpt]

theorem keysOf_removeJob_nodup {g : Graph} {i : String} {j : Job}
    (h : (keysOf g).Nodup) : (keysOf (removeJob g i j)).Nodup := by
  simp only [removeJob]
  apply keysOf_eraseKey_nodup
  rw [keysOf_foldl_updJob, keysOf_foldl_updJobOpt]
  exact h

/-- Every remaining entry keeps its identity fields and only loses
adjacency entries. -/
def Shrunk (g0 g : Graph) : Prop :=
  ∀ x jx, find? g x = some jx → ∃ jx0, find? g0 x = some jx0 ∧
    jx.id = jx0.id ∧ jx.name = jx0.name ∧ jx.level = jx0.level ∧
    (∀ p ∈ jx.parents, p ∈ jx0.parents) ∧ (∀ c ∈ jx.children, c ∈ jx0.children)

theorem shrunk_rfl (g : Graph) : Shrunk g g :=
  fun _ jx hx => ⟨jx, hx, rfl, rfl, rfl, fun _ h => h, fun _ h => h⟩

theorem shrunk_comp {g0 g1 g2 : Graph} (h01 : Shrunk g0 g1) (h12 : Shrunk g1 g2) :
    Shrunk g0 g2 := by
  intro x jx hx
  obtain ⟨jm, hm, hid, hnm, hlv, hps, hcs⟩ := h12 x jx hx
  obtain ⟨j0, h0, hid0, hnm0, hlv0, hps0, hcs0⟩ := h01 x jm hm
  exact ⟨j0, h0, hid.trans hid0, hnm.trans hnm0, hlv.trans hlv0,
    fun p hp => hps0 p (hps p hp), fun c hc => hcs0 c (hcs c hc)⟩

/-- The destructured form of `find?_removeJob` for successful lookups. -/
theorem removeJob_some {g : Graph} {i : String} {j : Job}
    (hpnd : j.parents.Nodup) (hcnd : j.children.Nodup) {x : String} {jx : Job}
    (hx : find? (removeJob g i j) x = some jx) :
    x ≠ i ∧ ∃ jx0, find? g x = some jx0 ∧
      jx = { jx0 with
        parents := if x ∈ j.children then jx0.parents.erase (some i) else jx0.parents,
        children := if some x ∈ j.parents then jx0.children.erase i else jx0.children } := by
  rw [find?_removeJob g i j hpnd hcnd x] at hx
  by_cases hxi : x = i
  · simp [hxi] at hx
  · refine ⟨hxi, ?_⟩
    rw [if_neg hxi] at hx
    rcases hfind : find? g x with _ | jx0
    · rw [hfind] at hx; simp at hx
    · rw [hfind] at hx
      rw [Option.map_some'] at hx
      exact ⟨jx0, rfl, (Option.some.inj hx).symm⟩

theorem removeJob_mk {g : Graph} {i : String} {j : Job}
    (hpnd : j.parents.Nodup) (hcnd : j.children.Nodup) {x : String} {jx0 : Job}
    (hxi : x ≠ i) (hx : find? g x = some jx0) :
    find? (removeJob g i j) x = some { jx0 with
      parents := if x ∈ j.children then jx0.parents.erase (some i) else jx0.parents,
      children := if some x ∈ j.parents then jx0.children.erase i else jx0.children } := by
  rw [find?_removeJob g i j hpnd hcnd x, if_neg hxi, hx]
  rfl

theorem removeJob_parentRel {g : Graph} {i : String} {j : Job}
    (hwf : WF g) (hij : find? g i = some j) (p c : String) :
    parentRel (removeJob g i j) p c ↔ (p ≠ i ∧ c ≠ i ∧ parentRel g p c) := by
  have hpnd := hwf.parentsNodup i j hij
  have hcnd := hwf.childrenNodup i j hij
  constructor
  · rintro ⟨jc, hjc, hp⟩
    obtain ⟨hci, jc0, hjc0, rfl⟩ := removeJob_some hpnd hcnd hjc
    dsimp at hp
    by_cases hcc : c ∈ j.children
    · rw [if_pos hcc] at hp
      obtain ⟨hne, hmem⟩ := ((hwf.parentsNodup c jc0 hjc0).mem_erase_iff).mp hp
      exact ⟨fun hpi => hne (by rw [hpi]), hci, jc0, hjc0, hmem⟩
    · rw [if_neg hcc] at hp
      refine ⟨?_, hci, jc0, hjc0, hp⟩
      intro hpi
      subst hpi
      obtain ⟨j', hj', hcmem⟩ := (hwf.consistent p c).mp ⟨jc0, hjc0, hp⟩
      rw [hij] at hj'
      cases hj'
      exact hcc hcmem
  · rintro ⟨hpi, hci, jc0, hjc0, hmem⟩
    refine ⟨_, removeJob_mk hpnd hcnd hci hjc0, ?_⟩
    dsimp
    by_cases hcc : c ∈ j.children
    · rw [if_pos hcc]
      exact ((hwf.parentsNodup c jc0 hjc0).mem_erase_iff).mpr
        ⟨fun h => hpi (Option.some.inj h), hmem⟩
    · rw [if_neg hcc]
      exact hmem

theorem removeJob_childRel {g : Graph} {i : String} {j : Job}
    (hwf : WF g) (hij : find? g i = some j) (p c : String) :
    childRel (removeJob g i j) p c ↔ (p ≠ i ∧ c ≠ i ∧ childRel g p c) := by
  have hpnd := hwf.parentsNodup i j hij
  have hcnd := hwf.childrenNodup i j hij
  constructor
  · rintro ⟨jp, hjp, hc⟩
    obtain ⟨hpi, jp0, hjp0, rfl⟩ := removeJob_some hpnd hcnd hjp
    dsimp at hc
    by_cases hpp : some p ∈ j.parents
    · rw [if_pos hpp] at hc
      obtain ⟨hne, hmem⟩ := ((hwf.childrenNodup p jp0 hjp0).mem_erase_iff).mp hc
      exact ⟨hpi, hne, jp0, hjp0, hmem⟩
    · rw [if_neg hpp] at hc
      refine ⟨hpi, ?_, jp0, hjp0, hc⟩
      intro hci
      subst hci
      obtain ⟨j', hj', hpmem⟩ := (hwf.consistent p c).mpr ⟨jp0, hjp0, hc⟩
      rw [hij] at hj'
      cases hj'
      exact hpp hpmem
  · rintro ⟨hpi, hci, jp0, hjp0, hmem⟩
    refine ⟨_, removeJob_mk hpnd hcnd hpi hjp0, ?_⟩
    dsimp
    by_cases hpp : some p ∈ j.parents
    · rw [if_pos hpp]
      exact ((hwf.childrenNodup p jp0 hjp0).mem_erase_iff).mpr ⟨hci, hmem⟩
    · rw [if_neg hpp]
      exact hmem

theorem removeJob_WF {g : Graph} {i : String} {j : Job}
    (hwf : WF g) (hij : find? g i = some j) : WF (removeJob g i j) := by
  have hpnd := hwf.parentsNodup i j hij
  have hcnd := hwf.childrenNodup i j hij
  refine ⟨keysOf_removeJob_nodup hwf.keysNodup, ?_, ?_, ?_, ?_, ?_, ?_, ?_, ?_⟩
  · intro x jx hx
    obtain ⟨hxi, jx0, hjx0, rfl⟩ := removeJob_some hpnd hcnd hx
    exact hwf.idMatch x jx0 hjx0
  · intro x jx hx
    obtain ⟨hxi, jx0, hjx0, rfl⟩ := removeJob_some hpnd hcnd hx
    dsimp
    by_cases hcc : x ∈ j.children
    · rw [if_pos hcc]
      exact (hwf.parentsNodup x jx0 hjx0).erase _
    · rw [if_neg hcc]
      exact hwf.parentsNodup x jx0 hjx0
  · intro x jx hx
    obtain ⟨hxi, jx0, hjx0, rfl⟩ := removeJob_some hpnd hcnd hx
    dsimp
    by_cases hpp : some x ∈ j.parents
    · rw [if_pos hpp]
      exact (hwf.childrenNodup x jx0 hjx0).erase _
    · rw [if_neg hpp]
      exact hwf.childrenNodup x jx0 hjx0
  · intro x jx hx hmem
    obtain ⟨hxi, jx0, hjx0, rfl⟩ := removeJob_some hpnd hcnd hx
    dsimp at hmem
    by_cases hcc : x ∈ j.children
    · rw [if_pos hcc] at hmem
      exact hwf.noRootRef x jx0 hjx0 (List.mem_of_mem_erase hmem)
    · rw [if_neg hcc] at hmem
      exact hwf.noRootRef x jx0 hjx0 hmem
  · intro x jx p hx hmem
    have hrel : parentRel (removeJob g i j) p x := ⟨jx, hx, hmem⟩
    obtain ⟨hpi, hxi, jx0, hjx0, hm0⟩ := (removeJob_parentRel hwf hij p x).mp hrel
    have hp : (find? g p).isSome := hwf.parentsClosed x jx0 p hjx0 hm0
    obtain ⟨jp, hjp⟩ := Option.isSome_iff_exists.mp hp
    rw [removeJob_mk hpnd hcnd hpi hjp]
    rfl
  · intro x jx c hx hmem
    have hrel : childRel (removeJob g i j) x c := ⟨jx, hx, hmem⟩
    obtain ⟨hxi, hci, jx0, hjx0, hm0⟩ := (removeJob_childRel hwf hij x c).mp hrel
    have hc : (find? g c).isSome := hwf.childrenClosed x jx0 c hjx0 hm0
    obtain ⟨jc, hjc⟩ := Option.isSome_iff_exists.mp hc
    rw [removeJob_mk hpnd hcnd hci hjc]
    rfl
  · intro p c
    rw [removeJob_parentRel hwf hij p c, removeJob_childRel hwf hij p c]
    constructor
    · rintro ⟨h1, h2, h3⟩
      exact ⟨h1, h2, (hwf.consistent p c).mp h3⟩
    · rintro ⟨h1, h2, h3⟩
      exact ⟨h1, h2, (hwf.consistent p c).mpr h3⟩
  · intro x hx
    obtain ⟨_, _, h3⟩ := (removeJob_childRel hwf hij x x).mp hx
    exact hwf.noSelfLoop x h3

theorem removeJob_Shrunk {g : Graph} {i : String} {j : Job}
    (hpnd : j.parents.Nodup) (hcnd : j.children.Nodup) :
    Shrunk g (removeJob g i j) := by
  intro x jx hx
  obtain ⟨hxi, jx0, hjx0, rfl⟩ := removeJob_some hpnd hcnd hx
  refine ⟨jx0, hjx0, rfl, rfl, rfl, ?_, ?_⟩
  · dsimp
    by_cases hcc : x ∈ j.children
    · rw [if_pos hcc]
      exact fun p hp => List.mem_of_mem_erase hp
    · rw [if_neg hcc]
      exact fun p hp => hp
  · dsimp
    by_cases hpp : some x ∈ j.parents
    · rw [if_pos hpp]
      exact fun c hc => List.mem_of_mem_erase hc
    · rw [if_neg hpp]
      exact fun c hc => hc

theorem removeStep_WF (xs : List String) {g : Graph} (hwf : WF g) (id : String) :
    WF (removeStep xs g id) := by
  rcases h : find? g id with _ | job
  · simp only [removeStep, h]
    exact hwf
  · simp only [removeStep, h]
    by_cases hn : job.name ∈ xs
    · rw [if_pos hn]
      exact removeJob_WF hwf h
    · rw [if_neg hn]
      exact hwf

theorem removeStep_Shrunk (xs : List String) {g : Graph} (hwf : WF g) (id : String) :
    Shrunk g (removeStep xs g id) := by
  rcases h : find? g id with _ | job
  · simp only [removeStep, h]
    exact shrunk_rfl g
  · simp only [removeStep, h]
    by_cases hn : job.name ∈ xs
    · rw [if_pos hn]
      exact removeJob_Shrunk (hwf.parentsNodup id job h) (hwf.childrenNodup id job h)
    · rw [if_neg hn]
      exact shrunk_rfl g

theorem removeStep_keys_sub (xs : List String) (g : Graph) (id : String) {x : String}
    (hx : x ∈ keysOf (removeStep xs g id)) : x ∈ keysOf g := by
  rcases h : find? g id with _ | job
  · simp only [removeStep, h] at hx
    exact hx
  · simp only [removeStep, h] at hx
    by_cases hn : job.name ∈ xs
    · rw [if_pos hn] at hx
      exact (mem_keysOf_removeJob.mp hx).2
    · rw [if_neg hn] at hx
      exact hx

theorem removeFold_inv (xs : List String) :
    ∀ (ids : List String) (g : Graph), WF g →
      WF (ids.foldl (removeStep xs) g) ∧
      Shrunk g (ids.foldl (removeStep xs) g) ∧
      (∀ x, x ∈ keysOf (ids.foldl (removeStep xs) g) → x ∈ keysOf g) ∧
      (∀ r ∈ ids, ∀ jr, find? g r = some jr → jr.name ∈ xs →
        r ∉ keysOf (ids.foldl (removeStep xs) g)) := by
  intro ids
  induction ids with
  | nil =>
    intro g hwf
    exact ⟨hwf, shrunk_rfl g, fun _ h => h, by simp⟩
  | cons id tl ih =>
    intro g hwf
    simp only [List.foldl_cons]
    obtain ⟨ihWF, ihShr, ihKeys, ihDel⟩ := ih (removeStep xs g id) (removeStep_WF xs hwf id)
    refine ⟨ihWF, shrunk_comp (removeStep_Shrunk xs hwf id) ihShr,
      fun x hx => removeStep_keys_sub xs g id (ihKeys x hx), ?_⟩
    intro r hr jr hjr hname
    rcases List.mem_cons.mp hr with hrid | hrtl
    · subst hrid
      have hstep : removeStep xs g r = removeJob g r jr := by
        simp [removeStep, hjr, hname]
      have hout : r ∉ keysOf (removeStep xs g r) := by
        rw [hstep]
        intro hmem
        exact (mem_keysOf_removeJob.mp hmem).1 rfl
      exact fun hmem => hout (ihKeys r hmem)
    · rcases hfind : find? (removeStep xs g id) r with _ | jr2
      · intro hmem
        have hk : r ∈ keysOf (removeStep xs g id) := ihKeys r hmem
        rw [← find?_isSome_iff, hfind] at hk
        simp at hk
      · have hname2 : jr2.name ∈ xs := by
          obtain ⟨jr0, hjr0, _, hnm, _⟩ := removeStep_Shrunk xs hwf id r jr2 hfind
          rw [hjr] at hjr0
          cases hjr0
          rw [hnm]
          exact hname
        exact ihDel r hrtl jr2 hfind hname2

theorem remove_xforms_results (g : Graph) (xs : List String) (hwf : WF g) :
    WF (remove_xforms g xs) ∧ Shrunk g (remove_xforms g xs) ∧
    (∀ r jr, find? g r = some jr → jr.name ∈ xs → r ∉ keysOf (remove_xforms g xs)) := by
  rcases hxs : xs with _ | ⟨x0, xtl⟩
  · have he : remove_xforms g [] = g := rfl
    rw [he]
    refine ⟨hwf, shrunk_rfl g, ?_⟩
    intro r jr _ hname
    simp at hname
  · have he : remove_xforms g (x0 :: xtl) = (keysOf g).foldl (removeStep (x0 :: xtl)) g := by
      simp [remove_xforms]
    rw [he]
    obtain ⟨h1, h2, h3, h4⟩ := removeFold_inv (x0 :: xtl) (keysOf g) g hwf
    refine ⟨h1, h2, fun r jr hjr hname => ?_⟩
    exact h4 r (find?_isSome_iff.mp (by rw [hjr]; rfl)) jr hjr hname

/-- Claim C5: after `remove_xforms` completes on a well-formed graph, no
remaining node keeps any reference (parent or child) to a removed node. -/
theorem remove_xforms_no_dangling (g : Graph) (xs : List String) (hwf : WF g) :
    ∀ x jx, find? (remove_xforms g xs) x = some jx →
      ∀ r jr, find? g r = some jr → jr.name ∈ xs →
        some r ∉ jx.parents ∧ r ∉ jx.children := by
  obtain ⟨hwf', _, hdel⟩ := remove_xforms_results g xs hwf
  intro x jx hx r jr hr hrname
  have hrkeys : r ∉ keysOf (remove_xforms g xs) := hdel r jr hr hrname
  constructor
  · intro hmem
    exact hrkeys (find?_isSome_iff.mp (hwf'.parentsClosed x jx r hx hmem))
  · intro hmem
    exact hrkeys (find?_isSome_iff.mp (hwf'.childrenClosed x jx r hx hmem))

/-! ### Executable checkers for concrete instances -/

/-- Boolean edge test: `c` is recorded among `p`'s children. -/
def childRelB (g : Graph) (p c : String) : Bool :=
  match find? g p with
  | some j => decide (c ∈ j.children)
  | none => false

/-- Boolean test: `p` is recorded among `c`'s parents. -/
def parentRelB (g : Graph) (p c : String) : Bool :=
  match find? g c with
  | some j => decide (some p ∈ j.parents)
  | none => false

theorem childRelB_iff {g : Graph} {p c : String} :
    childRelB g p c = true ↔ childRel g p c := by
  unfold childRelB childRel
  rcases h : find? g p with _ | j <;> simp [h]

theorem parentRelB_iff {g : Graph} {p c : String} :
    parentRelB g p c = true ↔ parentRel g p c := by
  unfold parentRelB parentRel
  rcases h : find? g c with _ | j <;> simp [h]

/-- Executable sufficient condition for `WF`. -/
def wfCheck (g : Graph) : Bool :=
  decide ((keysOf g).Nodup) &&
  g.all (fun e =>
    decide (e.2.id = e.1) &&
    decide (e.2.parents.Nodup) &&
    decide (e.2.children.Nodup) &&
    decide ((none : Option String) ∉ e.2.parents) &&
    e.2.parents.all (fun q =>
      match q with
      | some pid => childRelB g pid e.1
      | none => false) &&
    e.2.children.all (fun c => parentRelB g e.1 c) &&
    decide (e.1 ∉ e.2.children))

theorem wf_of_wfCheck {g : Graph} (h : wfCheck g = true) : WF g := by
  unfold wfCheck at h
  simp only [Bool.and_eq_true, List.all_eq_true, decide_eq_true_eq] at h
  obtain ⟨hnd, hall⟩ := h
  have hfield : ∀ i j, find? g i = some j →
      j.id = i ∧ j.parents.Nodup ∧ j.children.Nodup ∧ (none : Option String) ∉ j.parents ∧
      (∀ q ∈ j.parents, (match q with
        | some pid => childRelB g pid i
        | none => false) = true) ∧
      (∀ c ∈ j.children, parentRelB g i c = true) ∧ i ∉ j.children := by
    intro i j hij
    have := hall (i, j) (find?_mem hij)
    simpa [and_assoc] using this
  refine ⟨hnd, ?_, ?_, ?_, ?_, ?_, ?_, ?_, ?_⟩
  · intro i j hij
    exact (hfield i j hij).1
  · intro i j hij
    exact (hfield i j hij).2.1
  · intro i j hij
    exact (hfield i j hij).2.2.1
  · intro i j hij
    exact (hfield i j hij).2.2.2.1
  · intro i j p hij hp
    have hq := (hfield i j hij).2.2.2.2.1 (some p) hp
    simp only at hq
    have := childRelB_iff.mp hq
    obtain ⟨jp, hjp, _⟩ := this
    rw [hjp]
    rfl
  · intro i j c hij hc
    have hq := (hfield i j hij).2.2.2.2.2.1 c hc
    have := parentRelB_iff.mp hq
    obtain ⟨jc, hjc, _⟩ := this
    rw [hjc]
    rfl
  · intro p c
    constructor
    · rintro ⟨jc, hjc, hp⟩
      have hq := (hfield c jc hjc).2.2.2.2.1 (some p) hp
      simp only at hq
      exact childRelB_iff.mp hq
    · rintro ⟨jp, hjp, hc⟩
      have hq := (hfield p jp hjp).2.2.2.2.2.1 c hc
      exact parentRelB_iff.mp hq
  · rintro i ⟨j, hij, hc⟩
    exact (hfield i j hij).2.2.2.2.2.2 hc

/-- Witness for `remove_xforms_no_dangling` on the chain `A→B→C` with the
node named "B" removed: the remaining node "A" has no reference to "B". -/
theorem remove_xforms_no_dangling_witness :
    some "B" ∉ (getJob (remove_xforms exChain ["B"]) "A").parents ∧
      "B" ∉ (getJob (remove_xforms exChain ["B"]) "A").children := by
  have h := remove_xforms_no_dangling exChain ["B"] (wf_of_wfCheck (by decide))
    "A" (getJob (remove_xforms exChain ["B"]) "A") (by decide)
    "B" (getJob exChain "B") (by decide) (by decide)
  exact h

/-! ### Level pass: basic lemmas (claims C2, C3) -/

/-- The graph differs from `g0` at most in the `level` fields. -/
def SameAdj (g0 g : Graph) : Prop :=
  ∀ i, find? g i = (find? g0 i).map (fun j => { j with level := levelOfId g i })

theorem sameAdj_rfl (g : Graph) : SameAdj g g := by
  intro i
  rcases h : find? g i with _ | j
  · rfl
  · simp [levelOfId, getJob, h]

theorem SameAdj.isSome {g0 g : Graph} (h : SameAdj g0 g) (i : String) :
    (find? g i).isSome ↔ (find? g0 i).isSome := by
  rw [h i]
  rcases find? g0 i with _ | j <;> simp

theorem SameAdj.parents {g0 g : Graph} (h : SameAdj g0 g) (i : String) :
    parentsOfId g i = parentsOfId g0 i := by
  unfold parentsOfId getJob
  rw [h i]
  rcases find? g0 i with _ | j <;> rfl

theorem SameAdj.children {g0 g : Graph} (h : SameAdj g0 g) (i : String) :
    childrenOfId g i = childrenOfId g0 i := by
  unfold childrenOfId getJob
  rw [h i]
  rcases find? g0 i with _ | j <;> rfl

theorem sameAdj_childRel {g0 g : Graph} (h : SameAdj g0 g) (p c : String) :
    childRel g p c ↔ childRel g0 p c := by
  unfold childRel
  rw [h p]
  rcases find? g0 p with _ | j <;> simp

theorem sameAdj_parentRel {g0 g : Graph} (h : SameAdj g0 g) (p c : String) :
    parentRel g p c ↔ parentRel g0 p c := by
  unfold parentRel
  rw [h c]
  rcases find? g0 c with _ | j <;> simp

theorem find?_relaxChildren (cs : List String) (L : Nat) :
    ∀ (g : Graph) (x : String), cs.Nodup →
      find? (relaxChildren g cs L) x =
        if x ∈ cs then (find? g x).map (fun j => { j with level := max j.level L })
        else find? g x := by
  induction cs with
  | nil => intro g x _; simp [relaxChildren]
  | cons c tl ih =>
    intro g x hnd
    obtain ⟨hc, htl⟩ := List.nodup_cons.mp hnd
    show find? (relaxChildren (relaxLevel g c L) tl L) x = _
    rw [ih (relaxLevel g c L) x htl]
    by_cases hx : x ∈ tl
    · have hxc : x ≠ c := fun h => hc (h ▸ hx)
      rw [if_pos hx, if_pos (List.mem_cons_of_mem _ hx)]
      unfold relaxLevel
      rw [find?_updJob, if_neg hxc]
    · by_cases hxc : x = c
      · subst hxc
        rw [if_neg hx, if_pos (List.mem_cons_self _ _)]
        unfold relaxLevel
        rw [find?_updJob, if_pos rfl]
      · rw [if_neg hx, if_neg (by simp [hxc, hx])]
        unfold relaxLevel
        rw [find?_updJob, if_neg hxc]

theorem keysOf_relaxChildren (g : Graph) (cs : List String) (L : Nat) :
    keysOf (relaxChildren g cs L) = keysOf g := by
  show keysOf (cs.foldl (fun g c => updJob g c _) g) = keysOf g
  rw [keysOf_foldl_updJob]

theorem levelOfId_relaxChildren {cs : List String} {L : Nat} (g : Graph) (x : String)
    (hnd : cs.Nodup) :
    levelOfId (relaxChildren g cs L) x =
      if x ∈ cs ∧ (find? g x).isSome then max (levelOfId g x) L else levelOfId g x := by
  unfold levelOfId getJob
  rw [find?_relaxChildren cs L g x hnd]
  by_cases hx : x ∈ cs
  · rcases h : find? g x with _ | j
    · simp [hx, h]
    · simp [hx, h]
  · simp [hx]

theorem levelOfId_relaxChildren_le {cs : List String} {L : Nat} (g : Graph) (x : String)
    (hnd : cs.Nodup) :
    levelOfId g x ≤ levelOfId (relaxChildren g cs L) x := by
  rw [levelOfId_relaxChildren g x hnd]
  by_cases h : x ∈ cs ∧ (find? g x).isSome <;> simp [h]

theorem rootsOf_sublist_keys (g : Graph) : (rootsOf g).Sublist (keysOf g) :=
  (List.filter_sublist g).map Prod.fst

theorem rootsOf_nodup {g : Graph} (h : (keysOf g).Nodup) : (rootsOf g).Nodup :=
  (rootsOf_sublist_keys g).nodup h

theorem find?_eq_of_mem_nodup :
    ∀ {g : Graph}, (keysOf g).Nodup → ∀ {i : String} {j : Job}, (i, j) ∈ g →
      find? g i = some j := by
  intro g
  induction g with
  | nil =>
    intro _ i j h
    simp at h
  | cons hd tl ih =>
    intro hnd i j hmem
    obtain ⟨k, jk⟩ := hd
    rcases List.mem_cons.mp hmem with heq | htl
    · cases heq
      simp [find?]
    · by_cases hk : k = i
      · subst hk
        exfalso
        exact (List.nodup_cons.mp hnd).1 (List.mem_map.mpr ⟨(k, j), htl, rfl⟩)
      · simp only [find?, if_neg hk]
        exact ih (List.nodup_cons.mp hnd).2 htl

theorem mem_rootsOf_iff {g : Graph} (hnd : (keysOf g).Nodup) {i : String} :
    i ∈ rootsOf g ↔ ∃ j, find? g i = some j ∧ j.parents = [] := by
  unfold rootsOf
  constructor
  · intro h
    obtain ⟨⟨k, j⟩, hmem, hk⟩ := List.mem_map.mp h
    obtain ⟨hmem2, hemp⟩ := List.mem_filter.mp hmem
    cases hk
    exact ⟨j, find?_eq_of_mem_nodup hnd hmem2, by simpa using hemp⟩
  · rintro ⟨j, hij, hemp⟩
    exact List.mem_map.mpr ⟨(i, j), List.mem_filter.mpr ⟨find?_mem hij, by simp [hemp]⟩, rfl⟩

theorem mem_rootsOf_isSome {g : Graph} (hnd : (keysOf g).Nodup) {i : String}
    (h : i ∈ rootsOf g) : (find? g i).isSome := by
  obtain ⟨j, hij, _⟩ := (mem_rootsOf_iff hnd).mp h
  rw [hij]
  rfl

theorem reaches_trans {g : Graph} {a b c : String}
    (h1 : Reaches g a b) (h2 : Reaches g b c) : Reaches g a c := by
  induction h1 with
  | base h => exact Reaches.step h h2
  | step h _ ih => exact Reaches.step h (ih h2)

theorem upReach_trans_aux {g : Graph} {a m : Option String} (h1 : UpReach g a m) :
    ∀ {x : String} {b : Option String}, m = some x → UpReach g (some x) b → UpReach g a b := by
  induction h1 with
  | base h =>
    intro x b hm h2
    subst hm
    exact UpReach.step h h2
  | step h _ ih =>
    intro x b hm h2
    exact UpReach.step h (ih hm h2)

theorem upReach_trans {g : Graph} {a : Option String} {x : String} {b : Option String}
    (h1 : UpReach g a (some x)) (h2 : UpReach g (some x) b) : UpReach g a b :=
  upReach_trans_aux h1 rfl h2

theorem upReach_decomp_aux {g : Graph} {s a : Option String} (h : UpReach g s a) :
    ∀ p : String, s = some p →
      ∃ y, a ∈ parentsOfId g y ∧ (y = p ∨ UpReach g (some p) (some y)) := by
  induction h with
  | base hb =>
    intro p hs
    subst hs
    exact ⟨p, hb, Or.inl rfl⟩
  | step hx _ ih =>
    intro p hs
    subst hs
    obtain ⟨y, hy, hcase⟩ := ih _ rfl
    rcases hcase with rfl | hup
    · exact ⟨y, hy, Or.inr (UpReach.base hx)⟩
    · exact ⟨y, hy, Or.inr (UpReach.step hx hup)⟩

/-- Peel the last (topmost) step off an upward walk that starts at a real
node: some node `y` below the endpoint has it among its parents. -/
theorem upReach_decomp {g : Graph} {p : String} {a : Option String}
    (h : UpReach g (some p) a) :
    ∃ y, a ∈ parentsOfId g y ∧ (y = p ∨ UpReach g (some p) (some y)) :=
  upReach_decomp_aux h p rfl

/-- Any path witnesses an upward walk back to some root above its end. -/
theorem rootPath_upReach {g : Graph} (hwf : WF g) :
    ∀ {i : String} {k : Nat}, RootPath g i k →
      ∃ r, r ∈ rootsOf g ∧ (r = i ∨ UpReach g (some i) (some r)) := by
  intro i k h
  induction h with
  | zero hr =>
    obtain ⟨j, hij, hemp⟩ := hr
    exact ⟨_, (mem_rootsOf_iff hwf.keysNodup).mpr ⟨j, hij, hemp⟩, Or.inl rfl⟩
  | @succ p k0 c hp hedge ih =>
    obtain ⟨r, hr, hcase⟩ := ih
    obtain ⟨jc, hjc, hmem⟩ := (hwf.consistent p c).mpr hedge
    have hbase : UpReach g (some c) (some p) := UpReach.base (by
      show some p ∈ parentsOfId g c
      simp [parentsOfId, getJob, hjc]
      exact hmem)
    rcases hcase with rfl | hup
    · exact ⟨r, hr, Or.inr hbase⟩
    · exact ⟨r, hr, Or.inr (upReach_trans hbase hup)⟩

/-- On an acyclic well-formed graph, every node is a root or has a root
strictly above it (reachable through parent entries). -/
theorem exists_root_above (g : Graph) (hwf : WF g) (hacy : Acyclic g) :
    ∀ p : String, (find? g p).isSome →
      ∃ c0 ∈ rootsOf g, c0 = p ∨ UpReach g (some p) (some c0) := by
  have hfin : Finite {x : String // x ∈ keysOf g} :=
    (List.finite_toSet (keysOf g)).to_subtype
  let rel : {x : String // x ∈ keysOf g} → {x : String // x ∈ keysOf g} → Prop :=
    fun a b => Reaches g a.val b.val
  have htrans : IsTrans _ rel := ⟨fun _ _ _ => reaches_trans⟩
  have hirr : IsIrrefl _ rel := ⟨fun a => hacy a.val⟩
  have hwfd : WellFounded rel := Finite.wellFounded_of_trans_of_irrefl rel
  have main : ∀ a : {x : String // x ∈ keysOf g},
      ∃ c0 ∈ rootsOf g, c0 = a.val ∨ UpReach g (some a.val) (some c0) := by
    intro a
    induction a using WellFounded.induction hwfd with
    | _ a ih =>
      have hsome : (find? g a.val).isSome := find?_isSome_iff.mpr a.property
      obtain ⟨ja, hja⟩ := Option.isSome_iff_exists.mp hsome
      have hpeq : parentsOfId g a.val = ja.parents := by
        simp [parentsOfId, getJob, hja]
      rcases hpar : ja.parents with _ | ⟨q, rest⟩
      · exact ⟨a.val, (mem_rootsOf_iff hwf.keysNodup).mpr ⟨ja, hja, hpar⟩, Or.inl rfl⟩
      · have hqmem : q ∈ ja.parents := by
          rw [hpar]
          exact List.mem_cons_self _ _
        rcases q with _ | pid
        · exact absurd hqmem (hwf.noRootRef a.val ja hja)
        · have hrel : parentRel g pid a.val := ⟨ja, hja, hqmem⟩
          have hedge : childRel g pid a.val := (hwf.consistent pid a.val).mp hrel
          have hpmem : pid ∈ keysOf g := by
            obtain ⟨jp, hjp, _⟩ := hedge
            exact find?_isSome_iff.mp (by rw [hjp]; rfl)
          have hlt : rel ⟨pid, hpmem⟩ a := Reaches.base hedge
          obtain ⟨c0, hc0, hcase⟩ := ih ⟨pid, hpmem⟩ hlt
          have hup0 : UpReach g (some a.val) (some pid) := UpReach.base (by
            show some pid ∈ parentsOfId g a.val
            rw [hpeq]
            exact hqmem)
          rcases hcase with rfl | hup
          · exact ⟨c0, hc0, Or.inr hup0⟩
          · exact ⟨c0, hc0, Or.inr (upReach_trans hup0 hup)⟩
  intro p hp
  exact main ⟨p, find?_isSome_iff.mp hp⟩

/-- Pending relaxation: someone in the worklist is `p` or lies above `p`,
so `p`'s outgoing edges will be relaxed again before the loop ends. -/
def PendL (g0 : Graph) (stack : List (Option String)) (p : String) : Prop :=
  ∃ a ∈ stack, (a = some p ∨
    (∃ aid, a = some aid ∧ UpReach g0 (some p) (some aid)) ∨
    (a = none ∧ ∃ c0 ∈ rootsOf g0, c0 = p ∨ UpReach g0 (some p) (some c0)))

/-- Invariant of the level-assignment worklist relative to the input
graph `g0`. -/
structure LInv (g0 : Graph) (st : SimpSt) (stack : List (Option String)) : Prop where
  adj : SameAdj g0 st.g
  keys : keysOf st.g = keysOf g0
  roots : st.rootChildren = rootsOf g0
  stackOk : ∀ r ∈ stack, r = none ∨
    ∃ a, r = some a ∧ (find? g0 a).isSome ∧ 1 ≤ levelOfId st.g a
  justified : ∀ i k, levelOfId st.g i = k + 1 → RootPath g0 i k
  pend : ∀ p c, childRel g0 p c →
    levelOfId st.g p + 1 ≤ levelOfId st.g c ∨ PendL g0 stack p
  rootPend : (none ∈ stack) ∨ ∀ c ∈ rootsOf g0, 1 ≤ levelOfId st.g c
  rootLow : ∀ i, parentsOfId g0 i = [] → levelOfId st.g i ≤ 1

theorem LInv_step (g0 : Graph) (hwf : WF g0) (st : SimpSt) (r : Option String)
    (rest : List (Option String)) (hinv : LInv g0 st (r :: rest)) :
    LInv g0 ⟨st.rootChildren, relaxChildren st.g (childrenOfRef st r) (levelOfRef st r + 1)⟩
      ((childrenOfRef st r).reverse.map some ++ rest) := by
  obtain ⟨hadj, hkeys, hroots, hstackOk, hjust, hpend, hrootPend, hrootLow⟩ := hinv
  have hcase : (r = none ∧ childrenOfRef st r = rootsOf g0 ∧ levelOfRef st r = 0) ∨
      (∃ a ja, r = some a ∧ find? g0 a = some ja ∧ childrenOfRef st r = ja.children ∧
        levelOfRef st r = levelOfId st.g a ∧ 1 ≤ levelOfId st.g a) := by
    rcases r with _ | a
    · exact Or.inl ⟨rfl, hroots, rfl⟩
    · rcases hstackOk (some a) (List.mem_cons_self _ _) with h | ⟨a', heq, hsm, hlev⟩
      · cases h
      · cases Option.some.inj heq
        obtain ⟨ja, hja⟩ := Option.isSome_iff_exists.mp hsm
        refine Or.inr ⟨a, ja, rfl, hja, ?_, rfl, hlev⟩
        show childrenOfId st.g a = ja.children
        rw [hadj.children a]
        exact childrenOfId_some hja
  have csnd : (childrenOfRef st r).Nodup := by
    rcases hcase with ⟨_, hcs, _⟩ | ⟨a, ja, _, hja, hcs, _, _⟩
    · rw [hcs]
      exact rootsOf_nodup hwf.keysNodup
    · rw [hcs]
      exact hwf.childrenNodup a ja hja
  have cssub : ∀ c ∈ childrenOfRef st r, (find? g0 c).isSome := by
    rcases hcase with ⟨_, hcs, _⟩ | ⟨a, ja, _, hja, hcs, _, _⟩
    · rw [hcs]
      intro c hc
      exact mem_rootsOf_isSome hwf.keysNodup hc
    · rw [hcs]
      intro c hc
      exact hwf.childrenClosed a ja c hja hc
  have hlevel : ∀ x, levelOfId (relaxChildren st.g (childrenOfRef st r) (levelOfRef st r + 1)) x =
      if x ∈ childrenOfRef st r then max (levelOfId st.g x) (levelOfRef st r + 1)
      else levelOfId st.g x := by
    intro x
    rw [levelOfId_relaxChildren st.g x csnd]
    by_cases hx : x ∈ childrenOfRef st r
    · rw [if_pos ⟨hx, (hadj.isSome x).mpr (cssub x hx)⟩, if_pos hx]
    · rw [if_neg (fun h => hx h.1), if_neg hx]
  have hmono : ∀ x, levelOfId st.g x ≤
      levelOfId (relaxChildren st.g (childrenOfRef st r) (levelOfRef st r + 1)) x := by
    intro x
    exact levelOfId_relaxChildren_le st.g x csnd
  have hmemnew : ∀ c ∈ childrenOfRef st r,
      (some c) ∈ ((childrenOfRef st r).reverse.map some ++ rest) := by
    intro c hc
    exact List.mem_append.mpr (Or.inl (List.mem_map.mpr ⟨c, List.mem_reverse.mpr hc, rfl⟩))
  refine ⟨?_, ?_, hroots, ?_, ?_, ?_, ?_, ?_⟩
  · -- SameAdj
    intro i
    rcases h0 : find? g0 i with _ | j0
    · have hst : find? st.g i = none := by
        rw [hadj i, h0]
        rfl
      rw [find?_relaxChildren _ _ _ _ csnd]
      by_cases hi : i ∈ childrenOfRef st r <;> simp [hi, hst]
    · have hst : find? st.g i = some { j0 with level := levelOfId st.g i } := by
        rw [hadj i, h0]
        rfl
      rw [find?_relaxChildren _ _ _ _ csnd]
      by_cases hi : i ∈ childrenOfRef st r
      · rw [if_pos hi, hst]
        simp only [Option.map_some']
        congr 1
        rw [hlevel i, if_pos hi]
      · rw [if_neg hi, hst]
        simp only [Option.map_some']
        congr 1
        rw [hlevel i, if_neg hi]
  · -- keys
    rw [keysOf_relaxChildren, hkeys]
  · -- stackOk
    intro x hx
    rcases List.mem_append.mp hx with hnew | hold
    · obtain ⟨c, hcrev, rfl⟩ := List.mem_map.mp hnew
      have hc : c ∈ childrenOfRef st r := List.mem_reverse.mp hcrev
      refine Or.inr ⟨c, rfl, cssub c hc, ?_⟩
      rw [hlevel c, if_pos hc]
      exact le_trans (Nat.succ_le_succ (Nat.zero_le _)) (le_max_right _ _)
    · rcases hstackOk x (List.mem_cons_of_mem _ hold) with h | ⟨a, rfl, hsm, hlev⟩
      · exact Or.inl h
      · exact Or.inr ⟨a, rfl, hsm, le_trans hlev (hmono a)⟩
  · -- justified
    intro i k hik
    by_cases hi : i ∈ childrenOfRef st r
    · rw [hlevel i, if_pos hi] at hik
      rcases max_choice (levelOfId st.g i) (levelOfRef st r + 1) with hmx | hmx
      · rw [hmx] at hik
        exact hjust i k hik
      · rw [hmx] at hik
        have hlk : levelOfRef st r = k := Nat.succ_injective hik
        rcases hcase with ⟨_, hcs, hlv⟩ | ⟨a, ja, _, hja, hcs, hlv, hpos⟩
        · have hk0 : k = 0 := by omega
          subst hk0
          rw [hcs] at hi
          obtain ⟨ji, hji, hemp⟩ := (mem_rootsOf_iff hwf.keysNodup).mp hi
          exact RootPath.zero ⟨ji, hji, hemp⟩
        · have hpos' : 1 ≤ levelOfRef st r := hlv ▸ hpos
          obtain ⟨m, hm⟩ : ∃ m, levelOfId st.g a = m + 1 := ⟨levelOfId st.g a - 1, by omega⟩
          have hpath : RootPath g0 a m := hjust a m hm
          have hedge : childRel g0 a i := ⟨ja, hja, hcs ▸ hi⟩
          have : k = m + 1 := by omega
          rw [this]
          exact RootPath.succ hpath hedge
    · rw [hlevel i, if_neg hi] at hik
      exact hjust i k hik
  · -- pend
    intro p c hedge
    rcases hpend p c hedge with hgap | ⟨a, ha, hcond⟩
    · by_cases hp : p ∈ childrenOfRef st r
      · exact Or.inr ⟨some p, hmemnew p hp, Or.inl rfl⟩
      · left
        rw [hlevel p, if_neg hp, hlevel c]
        by_cases hc : c ∈ childrenOfRef st r
        · rw [if_pos hc]
          exact le_trans hgap (le_max_left _ _)
        · rw [if_neg hc]
          exact hgap
    · rcases List.mem_cons.mp ha with rfl | harest
      · rcases hcond with heq | ⟨aid, heqa, hup⟩ | ⟨heqn, c0, hc0, hcase0⟩
        · -- the popped node is p itself: its outgoing edges are relaxed now
          rcases hcase with ⟨hrn, _, _⟩ | ⟨a0, ja, heq0, hja, hcs, hlv, _⟩
          · rw [heq] at hrn
            cases hrn
          · rw [heq] at heq0
            cases heq0
            obtain ⟨jp, hjp, hcmem⟩ := hedge
            rw [hja] at hjp
            cases hjp
            left
            rw [hlevel c, if_pos (by rw [hcs]; exact hcmem), hlevel p,
              if_neg (by rw [hcs]; intro hmem; exact hwf.noSelfLoop p ⟨ja, hja, hmem⟩), ← hlv]
            exact le_max_right _ _
        · -- someone above p was popped: a node one step closer is pushed
          obtain ⟨y, hy, hycase⟩ := upReach_decomp hup
          rcases h0 : find? g0 y with _ | jy
          · exfalso
            rw [parentsOfId_none h0] at hy
            simp at hy
          · have hyp : parentRel g0 aid y := ⟨jy, h0, by
              rw [← parentsOfId_some h0]
              exact hy⟩
            have hych : childRel g0 aid y := (hwf.consistent aid y).mp hyp
            rcases hcase with ⟨hrn, _, _⟩ | ⟨a0, ja, heq0, hja, hcs, _, _⟩
            · rw [heqa] at hrn
              cases hrn
            · rw [heqa] at heq0
              cases heq0
              obtain ⟨ja', hja', hymem⟩ := hych
              rw [hja] at hja'
              cases hja'
              refine Or.inr ⟨some y, hmemnew y (by rw [hcs]; exact hymem), ?_⟩
              rcases hycase with rfl | hup2
              · exact Or.inl rfl
              · exact Or.inr (Or.inl ⟨y, rfl, hup2⟩)
        · -- the synthetic root was popped: the root above p is pushed
          rcases hcase with ⟨hrn, hcs, _⟩ | ⟨a0, ja, heq0, _, _, _, _⟩
          · refine Or.inr ⟨some c0, hmemnew c0 (by rw [hcs]; exact hc0), ?_⟩
            rcases hcase0 with rfl | hup2
            · exact Or.inl rfl
            · exact Or.inr (Or.inl ⟨c0, rfl, hup2⟩)
          · rw [heqn] at heq0
            cases heq0
      · exact Or.inr ⟨a, List.mem_append.mpr (Or.inr harest), hcond⟩
  · -- rootPend
    rcases hcase with ⟨hrn, hcs, hlv⟩ | ⟨a0, ja, heq0, _, _, _, _⟩
    · refine Or.inr ?_
      intro c0 hc0
      rw [hlevel c0, if_pos (by rw [hcs]; exact hc0)]
      exact le_trans (Nat.succ_le_succ (Nat.zero_le _)) (le_max_right _ _)
    · rcases hrootPend with hn | hall
      · rcases List.mem_cons.mp hn with hr0 | hnrest
        · rw [heq0] at hr0
          cases hr0
        · exact Or.inl (List.mem_append.mpr (Or.inr hnrest))
      · exact Or.inr fun c0 hc0 => le_trans (hall c0 hc0) (hmono c0)
  · -- rootLow
    intro i hpar
    by_cases hi : i ∈ childrenOfRef st r
    · rcases hcase with ⟨_, _, hlv⟩ | ⟨a0, ja, _, hja, hcs, _, _⟩
      · rw [hlevel i, if_pos hi, hlv]
        exact Nat.max_le.mpr ⟨hrootLow i hpar, le_refl 1⟩
      · exfalso
        have hedge : childRel g0 a0 i := ⟨ja, hja, hcs ▸ hi⟩
        obtain ⟨ji, hji, hm⟩ := (hwf.consistent a0 i).mpr hedge
        have hpi : parentsOfId g0 i = ji.parents := parentsOfId_some hji
        rw [hpar] at hpi
        rw [← hpi] at hm
        simp at hm
    · rw [hlevel i, if_neg hi]
      exact hrootLow i hpar

theorem levelLoop_inv (g0 : Graph) (hwf : WF g0) :
    ∀ (fuel : Nat) (st : SimpSt) (stack : List (Option String)) (st' : SimpSt),
      LInv g0 st stack → levelLoop fuel st stack = some st' → LInv g0 st' [] := by
  intro fuel
  induction fuel with
  | zero =>
    intro st stack st' _ h
    simp [levelLoop] at h
  | succ fuel ih =>
    intro st stack st' hinv hrun
    rcases stack with _ | ⟨r, rest⟩
    · simp only [levelLoop] at hrun
      cases hrun
      exact hinv
    · simp only [levelLoop] at hrun
      exact ih _ _ st' (LInv_step g0 hwf st r rest hinv) hrun

theorem LInv_init (g0 : Graph) (hwf : WF g0) (hinit : InitLevels g0) (hacy : Acyclic g0) :
    LInv g0 ⟨rootsOf g0, g0⟩ [none] := by
  have hlev0 : ∀ i, levelOfId g0 i = 0 := by
    intro i
    rcases h : find? g0 i with _ | j
    · exact levelOfId_none h
    · rw [levelOfId_some h]
      exact hinit i j h
  refine ⟨sameAdj_rfl g0, rfl, rfl, ?_, ?_, ?_, Or.inl (List.mem_cons_self _ _), ?_⟩
  · intro r hr
    rcases List.mem_cons.mp hr with rfl | h
    · exact Or.inl rfl
    · simp at h
  · intro i k hik
    rw [hlev0 i] at hik
    exact absurd hik (by omega)
  · intro p c hedge
    right
    obtain ⟨jp, hjp, _⟩ := hedge
    obtain ⟨c0, hc0, hcase⟩ := exists_root_above g0 hwf hacy p (by rw [hjp]; rfl)
    exact ⟨none, List.mem_cons_self _ _, Or.inr (Or.inr ⟨rfl, c0, hc0, hcase⟩)⟩
  · intro i _
    rw [hlev0 i]
    omega

theorem levelPhase_inv (g0 : Graph) (hwf : WF g0) (hinit : InitLevels g0)
    (hacy : Acyclic g0) {F : Nat} {st1 : SimpSt} (hrun : levelPhase F g0 = some st1) :
    LInv g0 st1 [] := by
  unfold levelPhase at hrun
  exact levelLoop_inv g0 hwf F _ _ st1 (LInv_init g0 hwf hinit hacy) hrun

theorem LInv_final_gap {g0 : Graph} {st1 : SimpSt} (hfin : LInv g0 st1 []) :
    ∀ p c, childRel g0 p c → levelOfId st1.g p + 1 ≤ levelOfId st1.g c := by
  intro p c hedge
  rcases hfin.pend p c hedge with h | ⟨a, ha, _⟩
  · exact h
  · simp at ha

theorem LInv_final_rootsPos {g0 : Graph} {st1 : SimpSt} (hfin : LInv g0 st1 []) :
    ∀ c ∈ rootsOf g0, 1 ≤ levelOfId st1.g c := by
  rcases hfin.rootPend with h | h
  · simp at h
  · exact h

theorem LInv_final_pos {g0 : Graph} {st1 : SimpSt} (hwf : WF g0) (hfin : LInv g0 st1 []) :
    ∀ i, (find? g0 i).isSome → 1 ≤ levelOfId st1.g i := by
  intro i hi
  obtain ⟨ji, hji⟩ := Option.isSome_iff_exists.mp hi
  rcases hp : ji.parents with _ | ⟨q, qs⟩
  · exact LInv_final_rootsPos hfin i ((mem_rootsOf_iff hwf.keysNodup).mpr ⟨ji, hji, hp⟩)
  · rcases q with _ | pid
    · exact absurd (by rw [hp]; exact List.mem_cons_self _ _) (hwf.noRootRef i ji hji)
    · have hedge : childRel g0 pid i := (hwf.consistent pid i).mp
        ⟨ji, hji, by rw [hp]; exact List.mem_cons_self _ _⟩
      have := LInv_final_gap hfin pid i hedge
      omega

theorem LInv_final_rootsOne {g0 : Graph} {st1 : SimpSt} (hwf : WF g0)
    (hfin : LInv g0 st1 []) : ∀ c ∈ rootsOf g0, levelOfId st1.g c = 1 := by
  intro c hc
  have h1 := LInv_final_rootsPos hfin c hc
  obtain ⟨j, hj, hemp⟩ := (mem_rootsOf_iff hwf.keysNodup).mp hc
  have h2 := hfin.rootLow c (by rw [parentsOfId_some hj, hemp])
  omega

theorem LInv_final_longest {g0 : Graph} {st1 : SimpSt} (hwf : WF g0)
    (hfin : LInv g0 st1 []) :
    ∀ i, (find? g0 i).isSome →
      ∃ k, RootPath g0 i k ∧ levelOfId st1.g i = k + 1 ∧
        ∀ k2, RootPath g0 i k2 → k2 ≤ k := by
  intro i hi
  have hpos := LInv_final_pos hwf hfin i hi
  obtain ⟨k, hk⟩ : ∃ k, levelOfId st1.g i = k + 1 := ⟨levelOfId st1.g i - 1, by omega⟩
  refine ⟨k, hfin.justified i k hk, hk, ?_⟩
  intro k2 hk2
  have hlow : ∀ (x : String) (m : Nat), RootPath g0 x m → m + 1 ≤ levelOfId st1.g x := by
    intro x m hp
    induction hp with
    | zero hr =>
      obtain ⟨jx, hjx, hemp⟩ := hr
      exact LInv_final_rootsPos hfin _ ((mem_rootsOf_iff hwf.keysNodup).mpr ⟨jx, hjx, hemp⟩)
    | succ hp hedge ih =>
      have := LInv_final_gap hfin _ _ hedge
      omega
  have := hlow i k2 hk2
  omega

/-! ### Executable certificates for initial levels and acyclicity -/

/-- Executable check that every level is 0. -/
def initCheck (g : Graph) : Bool := g.all (fun e => e.2.level == 0)

theorem init_of_initCheck {g : Graph} (h : initCheck g = true) : InitLevels g := by
  intro i j hij
  have := List.all_eq_true.mp h (i, j) (find?_mem hij)
  simpa using this

/-- Executable acyclicity certificate: a strictly edge-increasing labeling. -/
def levelCert (g : Graph) (lv : String → Nat) : Bool :=
  g.all (fun e => e.2.children.all (fun c => lv e.1 < lv c))

theorem acyclic_of_levelCert {g : Graph} {lv : String → Nat}
    (h : levelCert g lv = true) : Acyclic g := by
  have hedge : ∀ p c, childRel g p c → lv p < lv c := by
    rintro p c ⟨j, hj, hc⟩
    have h1 := List.all_eq_true.mp h (p, j) (find?_mem hj)
    simp only [List.all_eq_true, decide_eq_true_eq] at h1
    exact h1 c hc
  have hreach : ∀ a b, Reaches g a b → lv a < lv b := by
    intro a b hr
    induction hr with
    | base h0 => exact hedge _ _ h0
    | step h0 _ ih => exact lt_trans (hedge _ _ h0) ih
  intro i hcon
  exact lt_irrefl _ (hreach i i hcon)

/-- An increasing labeling for the diamond graph. -/
def lvDiamond : String → Nat :=
  fun i => if i = "A" then 0 else if i = "B" then 1 else if i = "C" then 1 else 2

/-- Claim C2 (amended): after the level-assignment pass of `simplify`, every
node's level equals one plus the length of the longest path to it from a
zero-in-degree node; the synthetic root (level 0) shifts everything by one,
so roots get level 1, not 0. -/
theorem levelPhase_levels_longest_plus_one (F : Nat) (g : Graph) (st1 : SimpSt)
    (hwf : WF g) (hinit : InitLevels g) (hacy : Acyclic g)
    (hrun : levelPhase F g = some st1) :
    ∀ i, (find? g i).isSome →
      ∃ k, RootPath g i k ∧ levelOfId st1.g i = k + 1 ∧
        ∀ k2, RootPath g i k2 → k2 ≤ k :=
  LInv_final_longest hwf (levelPhase_inv g hwf hinit hacy hrun)

/-- Claim C2 counterexample: on the one-node graph, the single node is a
zero-in-degree root (the longest path to it has length 0), yet the level
pass assigns it level 1, not 0 as the claim requires. -/
theorem levelPhase_root_level_cex :
    isRoot exSingle "A" ∧ RootPath exSingle "A" 0 ∧
    (levelPhase 4 exSingle).isSome ∧
    levelOfId ((levelPhase 4 exSingle).getD default).g "A" = 1 := by
  have hroot : isRoot exSingle "A" :=
    ⟨{ id := "A", name := "A", level := 0, parents := [], children := [] }, rfl, rfl⟩
  exact ⟨hroot, RootPath.zero hroot, by decide, by decide⟩

/-- Witness for `levelPhase_levels_longest_plus_one` at the diamond graph's
sink `D` (longest path length 2, assigned level 3). -/
theorem levelPhase_levels_witness :
    ∃ k, RootPath exDiamond "D" k ∧
      levelOfId ((levelPhase 30 exDiamond).getD default).g "D" = k + 1 ∧
      ∀ k2, RootPath exDiamond "D" k2 → k2 ≤ k := by
  have hrun : levelPhase 30 exDiamond = some ((levelPhase 30 exDiamond).getD default) := by
    decide
  exact levelPhase_levels_longest_plus_one 30 exDiamond _
    (wf_of_wfCheck (by decide)) (init_of_initCheck (by decide))
    (@acyclic_of_levelCert exDiamond lvDiamond (by decide)) hrun "D" (by decide)

/-! ### Elimination pass: basic lemmas (claims C1, C3, C4, C7, C10) -/

def nameOfId (g : Graph) (i : String) : String := (getJob g i).name

def idOfId (g : Graph) (i : String) : String := (getJob g i).id

theorem nameOfId_some {g : Graph} {i : String} {j : Job} (h : find? g i = some j) :
    nameOfId g i = j.name := by
  unfold nameOfId getJob
  rw [h]
  rfl

theorem idOfId_some {g : Graph} {i : String} {j : Job} (h : find? g i = some j) :
    idOfId g i = j.id := by
  unfold idOfId getJob
  rw [h]
  rfl

theorem levelOfId_updJob (g : Graph) (i : String) (f : Job → Job) (x : String)
    (hf : ∀ j, (f j).level = j.level) :
    levelOfId (updJob g i f) x = levelOfId g x := by
  unfold levelOfId getJob
  rw [find?_updJob]
  by_cases hx : x = i
  · subst hx
    rcases h : find? g x with _ | j <;> simp [h, hf]
  · rw [if_neg hx]

theorem nameOfId_updJob (g : Graph) (i : String) (f : Job → Job) (x : String)
    (hf : ∀ j, (f j).name = j.name) :
    nameOfId (updJob g i f) x = nameOfId g x := by
  unfold nameOfId getJob
  rw [find?_updJob]
  by_cases hx : x = i
  · subst hx
    rcases h : find? g x with _ | j <;> simp [h, hf]
  · rw [if_neg hx]

theorem idOfId_updJob (g : Graph) (i : String) (f : Job → Job) (x : String)
    (hf : ∀ j, (f j).id = j.id) :
    idOfId (updJob g i f) x = idOfId g x := by
  unfold idOfId getJob
  rw [find?_updJob]
  by_cases hx : x = i
  · subst hx
    rcases h : find? g x with _ | j <;> simp [h, hf]
  · rw [if_neg hx]

theorem parentsOfId_updJob_frozen (g : Graph) (i : String) (f : Job → Job) (x : String)
    (hf : ∀ j, (f j).parents = j.parents) :
    parentsOfId (updJob g i f) x = parentsOfId g x := by
  unfold parentsOfId getJob
  rw [find?_updJob]
  by_cases hx : x = i
  · subst hx
    rcases h : find? g x with _ | j <;> simp [h, hf]
  · rw [if_neg hx]

theorem childrenOfId_updJob_frozen (g : Graph) (i : String) (f : Job → Job) (x : String)
    (hf : ∀ j, (f j).children = j.children) :
    childrenOfId (updJob g i f) x = childrenOfId g x := by
  unfold childrenOfId getJob
  rw [find?_updJob]
  by_cases hx : x = i
  · subst hx
    rcases h : find? g x with _ | j <;> simp [h, hf]
  · rw [if_neg hx]

theorem default_job_parents : (default : Job).parents = [] := rfl

theorem default_job_children : (default : Job).children = [] := rfl

theorem parentsOfId_rpe (g : Graph) (c : String) (n : Option String) (x : String) :
    parentsOfId (removeParentEntry g c n) x =
      if x = c then (parentsOfId g c).erase n else parentsOfId g x := by
  unfold removeParentEntry parentsOfId getJob
  rw [find?_updJob]
  by_cases hx : x = c
  · subst hx
    rcases h : find? g x with _ | j <;> simp [h, default_job_parents]
  · rw [if_neg hx, if_neg hx]

theorem childrenOfId_rpe (g : Graph) (c : String) (n : Option String) (x : String) :
    childrenOfId (removeParentEntry g c n) x = childrenOfId g x :=
  childrenOfId_updJob_frozen g c _ x (fun _ => rfl)

theorem parentsOfId_ape (g : Graph) (c : String) (n : Option String) (x : String)
    (hc : (find? g c).isSome) :
    parentsOfId (addParentEntry g c n) x =
      if x = c then parentsOfId g c ++ [n] else parentsOfId g x := by
  unfold addParentEntry parentsOfId getJob
  rw [find?_updJob]
  by_cases hx : x = c
  · subst hx
    obtain ⟨j, hj⟩ := Option.isSome_iff_exists.mp hc
    simp [hj]
  · rw [if_neg hx, if_neg hx]

theorem childrenOfId_ape (g : Graph) (c : String) (n : Option String) (x : String) :
    childrenOfId (addParentEntry g c n) x = childrenOfId g x :=
  childrenOfId_updJob_frozen g c _ x (fun _ => rfl)

theorem parentsOfId_rce (g : Graph) (a c : String) (x : String) :
    parentsOfId (removeChildEntry g a c) x = parentsOfId g x :=
  parentsOfId_updJob_frozen g a _ x (fun _ => rfl)

theorem childrenOfId_rce (g : Graph) (a c : String) (x : String) :
    childrenOfId (removeChildEntry g a c) x =
      if x = a then (childrenOfId g a).erase c else childrenOfId g x := by
  unfold removeChildEntry childrenOfId getJob
  rw [find?_updJob]
  by_cases hx : x = a
  · subst hx
    rcases h : find? g x with _ | j <;> simp [h, default_job_children]
  · rw [if_neg hx, if_neg hx]

theorem upReach_mono {g g' : Graph}
    (h : ∀ x q, q ∈ parentsOfId g' x → q ∈ parentsOfId g x) :
    ∀ {a b : Option String}, UpReach g' a b → UpReach g a b := by
  intro a b hr
  induction hr with
  | @base a0 b0 hb =>
    rcases a0 with _ | i
    · simp [parentsOfRef] at hb
    · exact UpReach.base (h i b0 hb)
  | @step a0 x b0 hx _ ih =>
    rcases a0 with _ | i
    · simp [parentsOfRef] at hx
    · exact UpReach.step (h i (some x) hx) ih

theorem upReach_congr {g g' : Graph}
    (h : ∀ x q, q ∈ parentsOfId g' x ↔ q ∈ parentsOfId g x) :
    ∀ (a b : Option String), UpReach g' a b ↔ UpReach g a b := by
  intro a b
  constructor
  · exact upReach_mono (fun x q => (h x q).mp)
  · exact upReach_mono (fun x q => (h x q).mpr)

/-- An alternative route from `p` down to `c`: an upward walk from `c` to
`p` that does not use the direct parent entry `(c, p)`. -/
def AltPath (g : Graph) (p c : String) : Prop :=
  UpReach (removeParentEntry g c (some p)) (some c) (some p)

theorem altPath_mono {g g' : Graph} {a c : String}
    (hnd : ∀ x, (parentsOfId g' x).Nodup)
    (hsub : ∀ x q, q ∈ parentsOfId g' x → q ∈ parentsOfId g x)
    (h : AltPath g' a c) : AltPath g a c := by
  unfold AltPath at h ⊢
  refine upReach_mono ?_ h
  intro x q hq
  rw [parentsOfId_rpe] at hq ⊢
  by_cases hx : x = c
  · rw [if_pos hx] at hq ⊢
    subst hx
    have hne : q ≠ some a := by
      intro hqa
      subst hqa
      exact ((hnd x).mem_erase_iff.mp hq).1 rfl
    rw [List.mem_erase_of_ne hne] at hq ⊢
    exact hsub x q hq
  · rw [if_neg hx] at hq ⊢
    exact hsub x q hq

/-- If the walk certificate found by `inv_reachable` exists after the
tentative parent-entry removal, deleting the edge on both sides leaves the
upward-reachability relation unchanged (the deleted entry is replaced by
the certificate walk). -/
theorem upReach_splice {G : Graph} {a c : String}
    (hnd : (parentsOfId G c).Nodup)
    (halt : UpReach (removeParentEntry G c (some a)) (some c) (some a)) :
    ∀ x y, UpReach (removeParentEntry G c (some a)) x y ↔ UpReach G x y := by
  intro x y
  constructor
  · refine upReach_mono ?_
    intro x' q hq
    rw [parentsOfId_rpe] at hq
    by_cases hx : x' = c
    · rw [if_pos hx] at hq
      subst hx
      exact List.mem_of_mem_erase hq
    · rw [if_neg hx] at hq
      exact hq
  · intro h
    induction h with
    | @base a0 b0 hb =>
      rcases a0 with _ | i
      · simp [parentsOfRef] at hb
      · by_cases hic : i = c
        · subst hic
          by_cases hba : b0 = some a
          · subst hba
            exact halt
          · refine UpReach.base ?_
            show b0 ∈ parentsOfId (removeParentEntry G i (some a)) i
            rw [parentsOfId_rpe, if_pos rfl]
            exact (List.mem_erase_of_ne hba).mpr hb
        · refine UpReach.base ?_
          show b0 ∈ parentsOfId (removeParentEntry G c (some a)) i
          rw [parentsOfId_rpe, if_neg hic]
          exact hb
    | @step a0 x2 b0 hx _ ih =>
      rcases a0 with _ | i
      · simp [parentsOfRef] at hx
      · by_cases hic : i = c
        · subst hic
          by_cases hxa : x2 = a
          · subst hxa
            exact upReach_trans halt ih
          · refine UpReach.step ?_ ih
            show some x2 ∈ parentsOfId (removeParentEntry G i (some a)) i
            rw [parentsOfId_rpe, if_pos rfl]
            exact (List.mem_erase_of_ne (by simp [hxa])).mpr hx
        · refine UpReach.step ?_ ih
          show some x2 ∈ parentsOfId (removeParentEntry G c (some a)) i
          rw [parentsOfId_rpe, if_neg hic]
          exact hx

theorem upReach_none {g : Graph} {b : Option String} : ¬ UpReach g none b := by
  intro h
  cases h with
  | base hb => simp [parentsOfRef] at hb
  | step hx _ => simp [parentsOfRef] at hx

/-- Soundness of `inv_reachable`: an affirmative answer is backed by an
upward walk from some stack element to `b`. -/
theorem inv_reachable_true {g : Graph} :
    ∀ (fuel : Nat) (stack : List (Option String)) (b : Option String),
      inv_reachable fuel g stack b = some true → ∃ s ∈ stack, UpReach g s b := by
  intro fuel
  induction fuel with
  | zero =>
    intro stack b h
    simp [inv_reachable] at h
  | succ fuel ih =>
    intro stack b h
    rcases stack with _ | ⟨a, rest⟩
    · simp [inv_reachable] at h
    · simp only [inv_reachable] at h
      by_cases hb : b ∈ parentsOfRef g a
      · exact ⟨a, List.mem_cons_self _ _, UpReach.base hb⟩
      · rw [if_neg hb] at h
        obtain ⟨s, hs, hup⟩ := ih _ _ h
        rcases List.mem_append.mp hs with hrev | hrest
        · have hs2 : s ∈ parentsOfRef g a := List.mem_reverse.mp hrev
          rcases s with _ | q
          · exact absurd hup upReach_none
          · exact ⟨a, List.mem_cons_self _ _, UpReach.step hs2 hup⟩
        · exact ⟨s, List.mem_cons_of_mem _ hrest, hup⟩

/-- Completeness direction: a negative answer excludes every upward walk
from the stack to `b`. -/
theorem inv_reachable_false {g : Graph} :
    ∀ (fuel : Nat) (stack : List (Option String)) (b : Option String),
      inv_reachable fuel g stack b = some false → ∀ s ∈ stack, ¬ UpReach g s b := by
  intro fuel
  induction fuel with
  | zero =>
    intro stack b h
    simp [inv_reachable] at h
  | succ fuel ih =>
    intro stack b h
    rcases stack with _ | ⟨a, rest⟩
    · intro s hs
      simp at hs
    · simp only [inv_reachable] at h
      by_cases hb : b ∈ parentsOfRef g a
      · rw [if_pos hb] at h
        simp at h
      · rw [if_neg hb] at h
        intro s hs
        rcases List.mem_cons.mp hs with rfl | hrest
        · intro hup
          cases hup with
          | base hb2 => exact hb hb2
          | step hx hrest2 =>
            exact ih _ _ h _ (List.mem_append.mpr
              (Or.inl (List.mem_reverse.mpr hx))) hrest2
        · exact ih _ _ h s (List.mem_append.mpr (Or.inr hrest))

theorem childRel_iff_mem {g : Graph} {p c : String} :
    childRel g p c ↔ c ∈ childrenOfId g p := by
  unfold childRel childrenOfId getJob
  rcases h : find? g p with _ | j <;> simp [h, default_job_children]

theorem parentRel_iff_mem {g : Graph} {p c : String} :
    parentRel g p c ↔ some p ∈ parentsOfId g c := by
  unfold parentRel parentsOfId getJob
  rcases h : find? g c with _ | j <;> simp [h, default_job_parents]

theorem childrenOfId_none {g : Graph} {i : String} (h : find? g i = none) :
    childrenOfId g i = [] := by
  unfold childrenOfId getJob
  rw [h]
  rfl

theorem wf_pnodup {g : Graph} (hwf : WF g) (i : String) : (parentsOfId g i).Nodup := by
  rcases h : find? g i with _ | j
  · rw [parentsOfId_none h]
    exact List.nodup_nil
  · rw [parentsOfId_some h]
    exact hwf.parentsNodup i j h

theorem wf_cnodup {g : Graph} (hwf : WF g) (i : String) : (childrenOfId g i).Nodup := by
  rcases h : find? g i with _ | j
  · rw [childrenOfId_none h]
    exact List.nodup_nil
  · rw [childrenOfId_some h]
    exact hwf.childrenNodup i j h

theorem wf_noRoot {g : Graph} (hwf : WF g) (i : String) : none ∉ parentsOfId g i := by
  rcases h : find? g i with _ | j
  · rw [parentsOfId_none h]
    simp
  · rw [parentsOfId_some h]
    exact hwf.noRootRef i j h

theorem wf_closedP {g : Graph} (hwf : WF g) {i : String} {p : String}
    (h : some p ∈ parentsOfId g i) : (find? g p).isSome := by
  rcases hf : find? g i with _ | j
  · rw [parentsOfId_none hf] at h
    simp at h
  · rw [parentsOfId_some hf] at h
    exact hwf.parentsClosed i j p hf h

theorem wf_closedC {g : Graph} (hwf : WF g) {i : String} {c : String}
    (h : c ∈ childrenOfId g i) : (find? g c).isSome := by
  rcases hf : find? g i with _ | j
  · rw [childrenOfId_none hf] at h
    simp at h
  · rw [childrenOfId_some hf] at h
    exact hwf.childrenClosed i j c hf h

theorem wf_consistent_mem {g : Graph} (hwf : WF g) (p c : String) :
    some p ∈ parentsOfId g c ↔ c ∈ childrenOfId g p := by
  rw [← parentRel_iff_mem, ← childRel_iff_mem]
  exact hwf.consistent p c

theorem wf_noSelf_mem {g : Graph} (hwf : WF g) (i : String) : i ∉ childrenOfId g i := by
  intro h
  exact hwf.noSelfLoop i (childRel_iff_mem.mpr h)

theorem wf_of_parts {g : Graph} (hkeys : (keysOf g).Nodup)
    (hid : ∀ i, (find? g i).isSome → idOfId g i = i)
    (hpn : ∀ i, (parentsOfId g i).Nodup)
    (hcn : ∀ i, (childrenOfId g i).Nodup)
    (hnr : ∀ i, none ∉ parentsOfId g i)
    (hpc : ∀ i p, some p ∈ parentsOfId g i → (find? g p).isSome)
    (hcc : ∀ i c, c ∈ childrenOfId g i → (find? g c).isSome)
    (hcons : ∀ p c, (some p ∈ parentsOfId g c ↔ c ∈ childrenOfId g p))
    (hself : ∀ i, i ∉ childrenOfId g i) : WF g := by
  refine ⟨hkeys, ?_, ?_, ?_, ?_, ?_, ?_, ?_, ?_⟩
  · intro i j h
    have := hid i (by rw [h]; rfl)
    rw [idOfId_some h] at this
    exact this
  · intro i j h
    have := hpn i
    rw [parentsOfId_some h] at this
    exact this
  · intro i j h
    have := hcn i
    rw [childrenOfId_some h] at this
    exact this
  · intro i j h
    have := hnr i
    rw [parentsOfId_some h] at this
    exact this
  · intro i j p h hp
    exact hpc i p (by rw [parentsOfId_some h]; exact hp)
  · intro i j c h hc
    exact hcc i c (by rw [childrenOfId_some h]; exact hc)
  · intro p c
    rw [parentRel_iff_mem, childRel_iff_mem]
    exact hcons p c
  · intro i hc
    exact hself i (childRel_iff_mem.mp hc)

theorem isSome_of_keysEq {g g' : Graph} (h : keysOf g' = keysOf g) (i : String) :
    (find? g' i).isSome ↔ (find? g i).isSome := by
  rw [find?_isSome_iff, find?_isSome_iff, h]

theorem wf_id {g : Graph} (hwf : WF g) (i : String) (h : (find? g i).isSome) :
    idOfId g i = i := by
  obtain ⟨j, hj⟩ := Option.isSome_iff_exists.mp h
  rw [idOfId_some hj]
  exact hwf.idMatch i j hj

theorem upReach_start_nonempty {g : Graph} {p : String} {b : Option String}
    (h : UpReach g (some p) b) : parentsOfId g p ≠ [] := by
  cases h with
  | base hb => exact List.ne_nil_of_mem hb
  | step hx _ => exact List.ne_nil_of_mem hx

/-! Per-operation frame lemmas. -/

theorem keysOf_rpe (g : Graph) (c : String) (n : Option String) :
    keysOf (removeParentEntry g c n) = keysOf g := by
  unfold removeParentEntry
  rw [keysOf_updJob]

theorem keysOf_ape (g : Graph) (c : String) (n : Option String) :
    keysOf (addParentEntry g c n) = keysOf g := by
  unfold addParentEntry
  rw [keysOf_updJob]

theorem keysOf_rce (g : Graph) (a c : String) :
    keysOf (removeChildEntry g a c) = keysOf g := by
  unfold removeChildEntry
  rw [keysOf_updJob]

theorem levelOfId_rpe (g : Graph) (c : String) (n : Option String) (x : String) :
    levelOfId (removeParentEntry g c n) x = levelOfId g x := by
  unfold removeParentEntry
  exact levelOfId_updJob g c _ x (fun _ => rfl)

theorem levelOfId_ape (g : Graph) (c : String) (n : Option String) (x : String) :
    levelOfId (addParentEntry g c n) x = levelOfId g x := by
  unfold addParentEntry
  exact levelOfId_updJob g c _ x (fun _ => rfl)

theorem levelOfId_rce (g : Graph) (a c : String) (x : String) :
    levelOfId (removeChildEntry g a c) x = levelOfId g x := by
  unfold removeChildEntry
  exact levelOfId_updJob g a _ x (fun _ => rfl)

theorem nameOfId_rpe (g : Graph) (c : String) (n : Option String) (x : String) :
    nameOfId (removeParentEntry g c n) x = nameOfId g x := by
  unfold removeParentEntry
  exact nameOfId_updJob g c _ x (fun _ => rfl)

theorem nameOfId_ape (g : Graph) (c : String) (n : Option String) (x : String) :
    nameOfId (addParentEntry g c n) x = nameOfId g x := by
  unfold addParentEntry
  exact nameOfId_updJob g c _ x (fun _ => rfl)

theorem nameOfId_rce (g : Graph) (a c : String) (x : String) :
    nameOfId (removeChildEntry g a c) x = nameOfId g x := by
  unfold removeChildEntry
  exact nameOfId_updJob g a _ x (fun _ => rfl)

theorem idOfId_rpe (g : Graph) (c : String) (n : Option String) (x : String) :
    idOfId (removeParentEntry g c n) x = idOfId g x := by
  unfold removeParentEntry
  exact idOfId_updJob g c _ x (fun _ => rfl)

theorem idOfId_ape (g : Graph) (c : String) (n : Option String) (x : String) :
    idOfId (addParentEntry g c n) x = idOfId g x := by
  unfold addParentEntry
  exact idOfId_updJob g c _ x (fun _ => rfl)

theorem idOfId_rce (g : Graph) (a c : String) (x : String) :
    idOfId (removeChildEntry g a c) x = idOfId g x := by
  unfold removeChildEntry
  exact idOfId_updJob g a _ x (fun _ => rfl)

/-! The permanent removal of an edge `(a, c)`:
`c.parents.remove(a)` followed by `a.children.remove(c)`. -/

theorem removeEdge_parents (G : Graph) (a c x : String) :
    parentsOfId (removeChildEntry (removeParentEntry G c (some a)) a c) x =
      if x = c then (parentsOfId G c).erase (some a) else parentsOfId G x := by
  rw [parentsOfId_rce, parentsOfId_rpe]

theorem removeEdge_children (G : Graph) (a c x : String) :
    childrenOfId (removeChildEntry (removeParentEntry G c (some a)) a c) x =
      if x = a then (childrenOfId G a).erase c else childrenOfId G x := by
  rw [childrenOfId_rce]
  by_cases hx : x = a <;> simp [hx, childrenOfId_rpe]

theorem removeEdge_keys (G : Graph) (a c : String) :
    keysOf (removeChildEntry (removeParentEntry G c (some a)) a c) = keysOf G := by
  rw [keysOf_rce, keysOf_rpe]

theorem removeEdge_level (G : Graph) (a c x : String) :
    levelOfId (removeChildEntry (removeParentEntry G c (some a)) a c) x = levelOfId G x := by
  rw [levelOfId_rce, levelOfId_rpe]

theorem removeEdge_name (G : Graph) (a c x : String) :
    nameOfId (removeChildEntry (removeParentEntry G c (some a)) a c) x = nameOfId G x := by
  rw [nameOfId_rce, nameOfId_rpe]

theorem removeEdge_id (G : Graph) (a c x : String) :
    idOfId (removeChildEntry (removeParentEntry G c (some a)) a c) x = idOfId G x := by
  rw [idOfId_rce, idOfId_rpe]

theorem removeEdge_WF {G : Graph} {a c : String} (hwf : WF G) :
    WF (removeChildEntry (removeParentEntry G c (some a)) a c) := by
  apply wf_of_parts
  · rw [removeEdge_keys]
    exact hwf.keysNodup
  · intro i hi
    rw [removeEdge_id]
    exact wf_id hwf i ((isSome_of_keysEq (removeEdge_keys G a c) i).mp hi)
  · intro i
    rw [removeEdge_parents]
    by_cases hi : i = c
    · rw [if_pos hi]
      exact (wf_pnodup hwf c).erase _
    · rw [if_neg hi]
      exact wf_pnodup hwf i
  · intro i
    rw [removeEdge_children]
    by_cases hi : i = a
    · rw [if_pos hi]
      exact (wf_cnodup hwf a).erase _
    · rw [if_neg hi]
      exact wf_cnodup hwf i
  · intro i
    rw [removeEdge_parents]
    by_cases hi : i = c
    · rw [if_pos hi]
      intro hmem
      exact wf_noRoot hwf c (List.mem_of_mem_erase hmem)
    · rw [if_neg hi]
      exact wf_noRoot hwf i
  · intro i p hp
    rw [removeEdge_parents] at hp
    rw [isSome_of_keysEq (removeEdge_keys G a c)]
    by_cases hi : i = c
    · rw [if_pos hi] at hp
      exact wf_closedP hwf (List.mem_of_mem_erase hp)
    · rw [if_neg hi] at hp
      exact wf_closedP hwf hp
  · intro i c2 hc2
    rw [removeEdge_children] at hc2
    rw [isSome_of_keysEq (removeEdge_keys G a c)]
    by_cases hi : i = a
    · rw [if_pos hi] at hc2
      exact wf_closedC hwf (List.mem_of_mem_erase hc2)
    · rw [if_neg hi] at hc2
      exact wf_closedC hwf hc2
  · intro p c2
    rw [removeEdge_parents, removeEdge_children]
    have hbase := wf_consistent_mem hwf p c2
    have hP : (some p ∈ (if c2 = c then (parentsOfId G c).erase (some a)
        else parentsOfId G c2)) ↔
        (some p ∈ parentsOfId G c2 ∧ ¬(c2 = c ∧ p = a)) := by
      by_cases hc2c : c2 = c
      · rw [if_pos hc2c, hc2c, (wf_pnodup hwf c).mem_erase_iff]
        constructor
        · rintro ⟨hne, hm⟩
          exact ⟨hm, fun hb => hne (by rw [hb.2])⟩
        · rintro ⟨hm, hno⟩
          exact ⟨fun he => hno ⟨rfl, Option.some.inj he⟩, hm⟩
      · rw [if_neg hc2c]
        constructor
        · intro hm
          exact ⟨hm, fun hb => hc2c hb.1⟩
        · rintro ⟨hm, _⟩
          exact hm
    have hC : (c2 ∈ (if p = a then (childrenOfId G a).erase c
        else childrenOfId G p)) ↔
        (c2 ∈ childrenOfId G p ∧ ¬(c2 = c ∧ p = a)) := by
      by_cases hpa : p = a
      · rw [if_pos hpa, hpa, (wf_cnodup hwf a).mem_erase_iff]
        constructor
        · rintro ⟨hne, hm⟩
          exact ⟨hm, fun hb => hne hb.1⟩
        · rintro ⟨hm, hno⟩
          exact ⟨fun he => hno ⟨he, rfl⟩, hm⟩
      · rw [if_neg hpa]
        constructor
        · intro hm
          exact ⟨hm, fun hb => hpa hb.2⟩
        · rintro ⟨hm, _⟩
          exact hm
    rw [hP, hC, hbase]
  · intro i
    rw [removeEdge_children]
    by_cases hi : i = a
    · rw [if_pos hi, hi]
      intro hmem
      exact wf_noSelf_mem hwf a (List.mem_of_mem_erase hmem)
    · rw [if_neg hi]
      exact wf_noSelf_mem hwf i

theorem removeEdge_upEq {G : Graph} {a c : String} (hwf : WF G)
    (halt : UpReach (removeParentEntry G c (some a)) (some c) (some a)) :
    ∀ x y, UpReach (removeChildEntry (removeParentEntry G c (some a)) a c) x y ↔
      UpReach G x y := by
  intro x y
  have h1 : ∀ x2 q, (q ∈ parentsOfId (removeChildEntry (removeParentEntry G c (some a)) a c) x2 ↔
      q ∈ parentsOfId (removeParentEntry G c (some a)) x2) := by
    intro x2 q
    rw [parentsOfId_rce]
  rw [upReach_congr h1 x y]
  exact upReach_splice (wf_pnodup hwf c) halt x y

/-! The restore of a tentatively removed edge: `c.parents.remove(a)`
followed by `c.parents.append(a)`. -/

theorem restore_children (G : Graph) (a c x : String) :
    childrenOfId (addParentEntry (removeParentEntry G c (some a)) c (some a)) x =
      childrenOfId G x := by
  rw [childrenOfId_ape, childrenOfId_rpe]

theorem restore_keys (G : Graph) (a c : String) :
    keysOf (addParentEntry (removeParentEntry G c (some a)) c (some a)) = keysOf G := by
  rw [keysOf_ape, keysOf_rpe]

theorem restore_level (G : Graph) (a c x : String) :
    levelOfId (addParentEntry (removeParentEntry G c (some a)) c (some a)) x =
      levelOfId G x := by
  rw [levelOfId_ape, levelOfId_rpe]

theorem restore_name (G : Graph) (a c x : String) :
    nameOfId (addParentEntry (removeParentEntry G c (some a)) c (some a)) x =
      nameOfId G x := by
  rw [nameOfId_ape, nameOfId_rpe]

theorem restore_id (G : Graph) (a c x : String) :
    idOfId (addParentEntry (removeParentEntry G c (some a)) c (some a)) x =
      idOfId G x := by
  rw [idOfId_ape, idOfId_rpe]

theorem restore_parents_eq {G : Graph} {a c : String} (hsm : (find? G c).isSome)
    (x : String) :
    parentsOfId (addParentEntry (removeParentEntry G c (some a)) c (some a)) x =
      if x = c then (parentsOfId G c).erase (some a) ++ [some a] else parentsOfId G x := by
  have hsm2 : (find? (removeParentEntry G c (some a)) c).isSome := by
    rw [isSome_of_keysEq (keysOf_rpe G c (some a))]
    exact hsm
  rw [parentsOfId_ape _ _ _ _ hsm2]
  by_cases hx : x = c
  · rw [if_pos hx, if_pos hx, parentsOfId_rpe, if_pos rfl]
  · rw [if_neg hx, if_neg hx, parentsOfId_rpe, if_neg hx]

theorem restore_parents_memEq {G : Graph} {a c : String} (_hwf : WF G)
    (hmem : some a ∈ parentsOfId G c) (x : String) (q : Option String) :
    (q ∈ parentsOfId (addParentEntry (removeParentEntry G c (some a)) c (some a)) x ↔
      q ∈ parentsOfId G x) := by
  have hsm : (find? G c).isSome := by
    rcases h : find? G c with _ | j
    · rw [parentsOfId_none h] at hmem
      simp at hmem
    · rfl
  rw [restore_parents_eq hsm]
  by_cases hx : x = c
  · rw [if_pos hx, hx]
    constructor
    · intro h
      rcases List.mem_append.mp h with h1 | h1
      · exact List.mem_of_mem_erase h1
      · simp at h1
        rw [h1]
        exact hmem
    · intro h
      by_cases hq : q = some a
      · exact List.mem_append.mpr (Or.inr (by simp [hq]))
      · exact List.mem_append.mpr (Or.inl ((List.mem_erase_of_ne hq).mpr h))
  · rw [if_neg hx]

theorem restore_WF {G : Graph} {a c : String} (hwf : WF G)
    (hmem : some a ∈ parentsOfId G c) :
    WF (addParentEntry (removeParentEntry G c (some a)) c (some a)) := by
  have hsm : (find? G c).isSome := by
    rcases h : find? G c with _ | j
    · rw [parentsOfId_none h] at hmem
      simp at hmem
    · rfl
  apply wf_of_parts
  · rw [restore_keys]
    exact hwf.keysNodup
  · intro i hi
    rw [restore_id]
    exact wf_id hwf i ((isSome_of_keysEq (restore_keys G a c) i).mp hi)
  · intro i
    rw [restore_parents_eq hsm]
    by_cases hi : i = c
    · rw [if_pos hi]
      have hnd := (wf_pnodup hwf c).erase (some a)
      have hnotin : some a ∉ (parentsOfId G c).erase (some a) := by
        intro h
        exact ((wf_pnodup hwf c).mem_erase_iff.mp h).1 rfl
      simp [List.nodup_append, hnd, hnotin]
    · rw [if_neg hi]
      exact wf_pnodup hwf i
  · intro i
    rw [restore_children]
    exact wf_cnodup hwf i
  · intro i
    rw [restore_parents_eq hsm]
    by_cases hi : i = c
    · rw [if_pos hi]
      intro h
      rcases List.mem_append.mp h with h1 | h1
      · exact wf_noRoot hwf c (List.mem_of_mem_erase h1)
      · simp at h1
    · rw [if_neg hi]
      exact wf_noRoot hwf i
  · intro i p hp
    rw [restore_parents_memEq hwf hmem] at hp
    rw [isSome_of_keysEq (restore_keys G a c)]
    exact wf_closedP hwf hp
  · intro i c2 hc2
    rw [restore_children] at hc2
    rw [isSome_of_keysEq (restore_keys G a c)]
    exact wf_closedC hwf hc2
  · intro p c2
    rw [restore_parents_memEq hwf hmem, restore_children]
    exact wf_consistent_mem hwf p c2
  · intro i
    rw [restore_children]
    exact wf_noSelf_mem hwf i

theorem restore_upEq {G : Graph} {a c : String} (hwf : WF G)
    (hmem : some a ∈ parentsOfId G c) :
    ∀ x y, UpReach (addParentEntry (removeParentEntry G c (some a)) c (some a)) x y ↔
      UpReach G x y :=
  upReach_congr (fun x q => restore_parents_memEq hwf hmem x q)

/-- After a restore, erasing the same entry again yields exactly the
tentatively-removed parents lists, so the `AltPath` test is unchanged. -/
theorem restore_rpe_eq {G : Graph} {a c : String} (hwf : WF G)
    (hsm : (find? G c).isSome) (x : String) :
    parentsOfId (removeParentEntry
        (addParentEntry (removeParentEntry G c (some a)) c (some a)) c (some a)) x =
      parentsOfId (removeParentEntry G c (some a)) x := by
  rw [parentsOfId_rpe, parentsOfId_rpe]
  by_cases hx : x = c
  · rw [if_pos hx, if_pos hx, restore_parents_eq hsm, if_pos rfl]
    have hnotin : some a ∉ (parentsOfId G c).erase (some a) := by
      intro h
      exact ((wf_pnodup hwf c).mem_erase_iff.mp h).1 rfl
    rw [List.erase_append_right _ hnotin]
    simp
  · rw [if_neg hx, if_neg hx, restore_parents_eq hsm, if_neg hx]

/-- The level a popped reference had when the elimination pass started
(levels are frozen during elimination). -/
def refLevelG1 (g1 : Graph) : Option String → Nat
  | none => 0
  | some a => levelOfId g1 a

/-- Core invariant of the elimination pass relative to the state `g1` the
pass started from (with `roots0` the synthetic root's children). -/
structure ECore (g1 : Graph) (roots0 : List String) (st : SimpSt) : Prop where
  wf : WF st.g
  keys : keysOf st.g = keysOf g1
  levels : ∀ i, levelOfId st.g i = levelOfId g1 i
  names : ∀ i, nameOfId st.g i = nameOfId g1 i
  ids : ∀ i, idOfId st.g i = idOfId g1 i
  roots : st.rootChildren = roots0
  pmem : ∀ x q, q ∈ parentsOfId st.g x → q ∈ parentsOfId g1 x
  cmem : ∀ x c, c ∈ childrenOfId st.g x → c ∈ childrenOfId g1 x
  upEq : ∀ a b, UpReach st.g a b ↔ UpReach g1 a b
  empEq : ∀ x, (parentsOfId st.g x = [] ↔ parentsOfId g1 x = [])

/-- Static facts about the elimination pass's input. -/
structure EStatic (g1 : Graph) (roots0 : List String) : Prop where
  wf1 : WF g1
  rootsOne : ∀ c ∈ roots0, levelOfId g1 c = 1

theorem elimChild_core {g1 : Graph} {roots0 : List String} (hS : EStatic g1 roots0)
    (F : Nat) (st : SimpSt) (r : Option String) (c : String) (st' : SimpSt)
    (hc : c ∈ childrenOfRef st r)
    (hE : ECore g1 roots0 st)
    (hstep : elimChild F st r c = some st') :
    ECore g1 roots0 st' ∧
    st'.rootChildren = st.rootChildren ∧
    (∀ x, childrenOfId st'.g x = childrenOfId st.g x ∨
      (r = some x ∧ childrenOfId st'.g x = (childrenOfId st.g x).erase c)) ∧
    (∀ x q, q ∈ parentsOfId st'.g x → q ∈ parentsOfId st.g x) ∧
    (refLevelG1 g1 r + 2 ≤ levelOfId g1 c →
      ∃ a, r = some a ∧ (c ∉ childrenOfId st'.g a ∨ ¬ AltPath st'.g a c)) ∧
    (levelOfId g1 c < refLevelG1 g1 r + 2 → st' = st) := by
  have hlevc : levelOfId st.g c = levelOfId g1 c := hE.levels c
  have hlevr : levelOfRef st r = refLevelG1 g1 r := by
    rcases r with _ | a
    · rfl
    · exact hE.levels a
  simp only [elimChild] at hstep
  by_cases hdist : (1 : Int) < (levelOfId st.g c : Int) - (levelOfRef st r : Int)
  · rw [if_pos hdist] at hstep
    rw [hlevc, hlevr] at hdist
    rcases r with _ | a
    · exfalso
      have hcr : c ∈ roots0 := by
        rw [← hE.roots]
        exact hc
      have h1 : levelOfId g1 c = 1 := hS.rootsOne c hcr
      simp only [refLevelG1] at hdist
      omega
    · have hc' : c ∈ childrenOfId st.g a := hc
      have hpar : some a ∈ parentsOfId st.g c := (wf_consistent_mem hE.wf a c).mpr hc'
      have hsm_c : (find? st.g c).isSome := by
        rcases h : find? st.g c with _ | j
        · rw [parentsOfId_none h] at hpar
          simp at hpar
        · rfl
      rcases hres : inv_reachable F (removeParentEntry st.g c (some a)) [some c] (some a)
        with _ | b
      · rw [hres] at hstep
        exact Option.noConfusion hstep
      · rcases b with _ | _
        · -- restore
          rw [hres] at hstep
          injection hstep with hstep2
          subst hstep2
          have hnot : ¬ UpReach (removeParentEntry st.g c (some a)) (some c) (some a) :=
            inv_reachable_false F [some c] (some a) hres (some c) (List.mem_cons_self _ _)
          refine ⟨?_, rfl, ?_, ?_, ?_, ?_⟩
          · refine ⟨restore_WF hE.wf hpar, ?_, ?_, ?_, ?_, hE.roots, ?_, ?_, ?_, ?_⟩
            · rw [restore_keys]
              exact hE.keys
            · intro i
              rw [restore_level]
              exact hE.levels i
            · intro i
              rw [restore_name]
              exact hE.names i
            · intro i
              rw [restore_id]
              exact hE.ids i
            · intro x q hq
              exact hE.pmem x q ((restore_parents_memEq hE.wf hpar x q).mp hq)
            · intro x c2 hc2
              rw [restore_children] at hc2
              exact hE.cmem x c2 hc2
            · intro a2 b2
              rw [restore_upEq hE.wf hpar a2 b2]
              exact hE.upEq a2 b2
            · intro x
              rw [restore_parents_eq hsm_c]
              by_cases hx : x = c
              · rw [if_pos hx]
                constructor
                · intro h
                  exact absurd h (by simp)
                · intro h
                  exfalso
                  have h2 : parentsOfId st.g c ≠ [] := List.ne_nil_of_mem hpar
                  rw [hx] at h
                  exact h2 ((hE.empEq c).mpr h)
              · rw [if_neg hx]
                exact hE.empEq x
          · intro x
            exact Or.inl (restore_children st.g a c x)
          · intro x q hq
            exact (restore_parents_memEq hE.wf hpar x q).mp hq
          · intro h2
            refine ⟨a, rfl, Or.inr ?_⟩
            unfold AltPath
            intro hup
            apply hnot
            refine upReach_mono ?_ hup
            intro x q hq
            rw [restore_rpe_eq hE.wf hsm_c x] at hq
            exact hq
          · intro hlt
            exfalso
            omega
        · -- permanent removal
          rw [hres] at hstep
          injection hstep with hstep2
          subst hstep2
          obtain ⟨s, hs, hup⟩ := inv_reachable_true F [some c] (some a) hres
          have halt : UpReach (removeParentEntry st.g c (some a)) (some c) (some a) := by
            rcases List.mem_cons.mp hs with rfl | h
            · exact hup
            · simp at h
          refine ⟨?_, rfl, ?_, ?_, ?_, ?_⟩
          · refine ⟨removeEdge_WF hE.wf, ?_, ?_, ?_, ?_, hE.roots, ?_, ?_, ?_, ?_⟩
            · rw [removeEdge_keys]
              exact hE.keys
            · intro i
              rw [removeEdge_level]
              exact hE.levels i
            · intro i
              rw [removeEdge_name]
              exact hE.names i
            · intro i
              rw [removeEdge_id]
              exact hE.ids i
            · intro x q hq
              rw [removeEdge_parents] at hq
              by_cases hx : x = c
              · rw [if_pos hx] at hq
                rw [hx]
                exact hE.pmem c q (List.mem_of_mem_erase hq)
              · rw [if_neg hx] at hq
                exact hE.pmem x q hq
            · intro x c2 hc2
              rw [removeEdge_children] at hc2
              by_cases hx : x = a
              · rw [if_pos hx] at hc2
                rw [hx]
                exact hE.cmem a c2 (List.mem_of_mem_erase hc2)
              · rw [if_neg hx] at hc2
                exact hE.cmem x c2 hc2
            · intro a2 b2
              rw [removeEdge_upEq hE.wf halt a2 b2]
              exact hE.upEq a2 b2
            · intro x
              rw [removeEdge_parents]
              by_cases hx : x = c
              · rw [if_pos hx]
                have hne : (parentsOfId (removeParentEntry st.g c (some a)) c) ≠ [] :=
                  upReach_start_nonempty halt
                rw [parentsOfId_rpe, if_pos rfl] at hne
                constructor
                · intro h
                  exact absurd h hne
                · intro h
                  exfalso
                  have h2 : parentsOfId st.g c ≠ [] := List.ne_nil_of_mem hpar
                  rw [hx] at h
                  exact h2 ((hE.empEq c).mpr h)
              · rw [if_neg hx]
                exact hE.empEq x
          · intro x
            rw [removeEdge_children]
            by_cases hx : x = a
            · rw [if_pos hx, hx]
              exact Or.inr ⟨rfl, rfl⟩
            · rw [if_neg hx]
              exact Or.inl rfl
          · intro x q hq
            rw [removeEdge_parents] at hq
            by_cases hx : x = c
            · rw [if_pos hx] at hq
              rw [hx]
              exact List.mem_of_mem_erase hq
            · rw [if_neg hx] at hq
              exact hq
          · intro h2
            refine ⟨a, rfl, Or.inl ?_⟩
            rw [removeEdge_children, if_pos rfl]
            intro hmem
            exact ((wf_cnodup hE.wf a).mem_erase_iff.mp hmem).1 rfl
          · intro hlt
            exfalso
            omega
  · rw [if_neg hdist] at hstep
    injection hstep with hstep2
    subst hstep2
    rw [hlevc, hlevr] at hdist
    refine ⟨hE, rfl, fun x => Or.inl rfl, fun x q h => h, ?_, fun _ => rfl⟩
    intro h2
    exfalso
    apply hdist
    omega

theorem elimChildren_core {g1 : Graph} {roots0 : List String} (hS : EStatic g1 roots0)
    (F : Nat) (r : Option String) :
    ∀ (cs : List String) (st st' : SimpSt),
      cs.Nodup →
      (∀ c ∈ cs, c ∈ childrenOfRef st r) →
      ECore g1 roots0 st →
      elimChildren F r st cs = some st' →
      ECore g1 roots0 st' ∧
      st'.rootChildren = st.rootChildren ∧
      (∀ x, (some x) ≠ r → childrenOfId st'.g x = childrenOfId st.g x) ∧
      (∀ c2, c2 ∈ childrenOfRef st' r → c2 ∈ childrenOfRef st r) ∧
      (∀ x q, q ∈ parentsOfId st'.g x → q ∈ parentsOfId st.g x) ∧
      (∀ c2 ∈ cs, refLevelG1 g1 r + 2 ≤ levelOfId g1 c2 →
        ∃ a, r = some a ∧ (c2 ∉ childrenOfId st'.g a ∨ ¬ AltPath st'.g a c2)) := by
  intro cs
  induction cs with
  | nil =>
    intro st st' _ _ hE hrun
    simp only [elimChildren] at hrun
    injection hrun with h
    subst h
    exact ⟨hE, rfl, fun _ _ => rfl, fun _ h => h, fun _ _ h => h, by simp⟩
  | cons c tl ih =>
    intro st st' hnd hmem hE hrun
    obtain ⟨hctl, htlnd⟩ := List.nodup_cons.mp hnd
    simp only [elimChildren] at hrun
    rcases hstep : elimChild F st r c with _ | st1
    · rw [hstep] at hrun
      exact Option.noConfusion hrun
    · rw [hstep] at hrun
      obtain ⟨hE1, hrc1, hch1, hpm1, htest1, _⟩ :=
        elimChild_core hS F st r c st1 (hmem c (List.mem_cons_self _ _)) hE hstep
      have hmem1 : ∀ c2 ∈ tl, c2 ∈ childrenOfRef st1 r := by
        intro c2 hc2
        have hc2' : c2 ∈ childrenOfRef st r := hmem c2 (List.mem_cons_of_mem _ hc2)
        have hne : c2 ≠ c := fun h => hctl (h ▸ hc2)
        rcases r with _ | a
        · show c2 ∈ st1.rootChildren
          rw [hrc1]
          exact hc2'
        · show c2 ∈ childrenOfId st1.g a
          rcases hch1 a with heq | ⟨_, herase⟩
          · rw [heq]
            exact hc2'
          · rw [herase]
            exact (List.mem_erase_of_ne hne).mpr hc2'
      obtain ⟨hE2, hrc2, hch2, hcr2, hpm2, htest2⟩ := ih st1 st' htlnd hmem1 hE1 hrun
      have hcrStep : ∀ c2, c2 ∈ childrenOfRef st1 r → c2 ∈ childrenOfRef st r := by
        intro c2 hc2
        rcases r with _ | a
        · show c2 ∈ st.rootChildren
          rw [← hrc1]
          exact hc2
        · rcases hch1 a with heq | ⟨_, herase⟩
          · show c2 ∈ childrenOfId st.g a
            rw [← heq]
            exact hc2
          · have : c2 ∈ (childrenOfId st.g a).erase c := by
              rw [← herase]
              exact hc2
            exact List.mem_of_mem_erase this
      refine ⟨hE2, hrc2.trans hrc1, ?_, ?_, ?_, ?_⟩
      · intro x hx
        rw [hch2 x hx]
        rcases hch1 x with heq | ⟨hr, _⟩
        · exact heq
        · exact absurd hr.symm hx
      · intro c2 hc2
        exact hcrStep c2 (hcr2 c2 hc2)
      · intro x q hq
        exact hpm1 x q (hpm2 x q hq)
      · intro c2 hc2 hlev
        rcases List.mem_cons.mp hc2 with rfl | hc2tl
        · obtain ⟨a, ha, hdisj⟩ := htest1 hlev
          refine ⟨a, ha, ?_⟩
          rcases hdisj with hnm | hna
          · left
            intro hmem2
            apply hnm
            have : c2 ∈ childrenOfRef st' r := by
              rw [ha]
              exact hmem2
            have := hcr2 c2 this
            rw [ha] at this
            exact this
          · right
            intro halt
            exact hna (altPath_mono (fun x => wf_pnodup hE2.wf x) hpm2 halt)
        · exact htest2 c2 hc2tl hlev

/-- Pending examination: someone in the worklist is `p` or lies above `p`
in the (invariant) upward-reachability relation of the pass's input. -/
def PendE (g1 : Graph) (roots0 : List String) (stack : List (Option String)) (p : String) :
    Prop :=
  ∃ a ∈ stack, (a = some p ∨
    (∃ aid, a = some aid ∧ UpReach g1 (some p) (some aid)) ∨
    (a = none ∧ ∃ c0 ∈ roots0, c0 = p ∨ UpReach g1 (some p) (some c0)))

/-- Full invariant of the elimination worklist. -/
structure EInv (g1 : Graph) (roots0 : List String) (st : SimpSt)
    (stack : List (Option String)) : Prop where
  core : ECore g1 roots0 st
  stackOk : ∀ r ∈ stack, r = none ∨ ∃ a, r = some a ∧ (find? st.g a).isSome
  pend : ∀ p c, childRel st.g p c → levelOfId g1 p + 2 ≤ levelOfId g1 c →
    (¬ AltPath st.g p c) ∨ PendE g1 roots0 stack p

/-- Facts about the pass input needed beyond `EStatic`. -/
structure EStatic2 (g1 : Graph) (roots0 : List String) : Prop where
  toEStatic : EStatic g1 roots0
  rootsNodup : roots0.Nodup
  rootsClosed : ∀ c ∈ roots0, (find? g1 c).isSome

theorem EInv_step {g1 : Graph} {roots0 : List String} (hS : EStatic2 g1 roots0)
    (F : Nat) (st : SimpSt) (r : Option String) (rest : List (Option String)) (st1 : SimpSt)
    (hinv : EInv g1 roots0 st (r :: rest))
    (hrun : elimChildren F r st (childrenOfRef st r) = some st1) :
    EInv g1 roots0 st1 ((childrenOfRef st r).reverse.map some ++ rest) := by
  obtain ⟨hE, hstackOk, hpend⟩ := hinv
  have csnd : (childrenOfRef st r).Nodup := by
    rcases r with _ | a
    · show st.rootChildren.Nodup
      rw [hE.roots]
      exact hS.rootsNodup
    · exact wf_cnodup hE.wf a
  have cssome : ∀ c ∈ childrenOfRef st r, (find? st.g c).isSome := by
    rcases r with _ | a
    · intro c hc
      have : c ∈ roots0 := by
        rw [← hE.roots]
        exact hc
      rw [isSome_of_keysEq hE.keys]
      exact hS.rootsClosed c this
    · intro c hc
      exact wf_closedC hE.wf hc
  obtain ⟨hE1, hrc1, hch1, hcr1, hpm1, htest1⟩ :=
    elimChildren_core hS.toEStatic F r (childrenOfRef st r) st st1 csnd
      (fun c h => h) hE hrun
  have hmemnew : ∀ c ∈ childrenOfRef st r,
      (some c) ∈ ((childrenOfRef st r).reverse.map some ++ rest) := by
    intro c hc
    exact List.mem_append.mpr (Or.inl (List.mem_map.mpr ⟨c, List.mem_reverse.mpr hc, rfl⟩))
  refine ⟨hE1, ?_, ?_⟩
  · intro x hx
    rcases List.mem_append.mp hx with hnew | hold
    · obtain ⟨c, hcrev, rfl⟩ := List.mem_map.mp hnew
      have hc := List.mem_reverse.mp hcrev
      refine Or.inr ⟨c, rfl, ?_⟩
      rw [isSome_of_keysEq hE1.keys, ← isSome_of_keysEq hE.keys]
      exact cssome c hc
    · rcases hstackOk x (List.mem_cons_of_mem _ hold) with h | ⟨a, rfl, hsm⟩
      · exact Or.inl h
      · refine Or.inr ⟨a, rfl, ?_⟩
        rw [isSome_of_keysEq hE1.keys, ← isSome_of_keysEq hE.keys]
        exact hsm
  · intro p c2 hedge hlev
    by_cases hpr : (some p : Option String) = r
    · -- the popped node's own surviving long edges were all tested
      have hmem2 : c2 ∈ childrenOfId st1.g p := childRel_iff_mem.mp hedge
      have hmemRef : c2 ∈ childrenOfRef st1 r := by
        rw [← hpr]
        exact hmem2
      have hmemRef0 : c2 ∈ childrenOfRef st r := hcr1 c2 hmemRef
      have hlev2 : refLevelG1 g1 r + 2 ≤ levelOfId g1 c2 := by
        rw [← hpr]
        exact hlev
      obtain ⟨a, ha, hdisj⟩ := htest1 c2 hmemRef0 hlev2
      have hap : a = p := by
        rw [ha] at hpr
        exact (Option.some.inj hpr).symm
      subst hap
      rcases hdisj with hnm | hna
      · exact absurd hmem2 hnm
      · exact Or.inl hna
    · -- an edge of an unpopped node: carry the old pendency over
      have hfroz : childrenOfId st1.g p = childrenOfId st.g p := hch1 p hpr
      have hedge0 : childRel st.g p c2 := by
        rw [childRel_iff_mem, ← hfroz]
        exact childRel_iff_mem.mp hedge
      rcases hpend p c2 hedge0 hlev with hno | ⟨a0, ha0, hcond⟩
      · left
        intro halt
        exact hno (altPath_mono (fun x => wf_pnodup hE1.wf x) hpm1 halt)
      · rcases List.mem_cons.mp ha0 with rfl | harest
        · rcases hcond with heq | ⟨aid, heqa, hup⟩ | ⟨heqn, c0, hc0, hcase0⟩
          · exact absurd heq.symm hpr
          · -- someone above p was popped; push the node one step below it
            have hupSt : UpReach st.g (some p) (some aid) := (hE.upEq _ _).mpr hup
            obtain ⟨y, hy, hycase⟩ := upReach_decomp hupSt
            have hych : y ∈ childrenOfId st.g aid := by
              rw [← wf_consistent_mem hE.wf aid y]
              exact hy
            have hyin : y ∈ childrenOfRef st a0 := by
              rw [heqa]
              exact hych
            refine Or.inr ⟨some y, hmemnew y hyin, ?_⟩
            rcases hycase with rfl | hup2
            · exact Or.inl rfl
            · exact Or.inr (Or.inl ⟨y, rfl, (hE.upEq _ _).mp hup2⟩)
          · -- the synthetic root was popped; push the root above p
            have hc0in : c0 ∈ childrenOfRef st a0 := by
              rw [heqn]
              show c0 ∈ st.rootChildren
              rw [hE.roots]
              exact hc0
            refine Or.inr ⟨some c0, hmemnew c0 hc0in, ?_⟩
            rcases hcase0 with rfl | hup2
            · exact Or.inl rfl
            · exact Or.inr (Or.inl ⟨c0, rfl, hup2⟩)
        · exact Or.inr ⟨a0, List.mem_append.mpr (Or.inr harest), hcond⟩

theorem elimLoop_inv {g1 : Graph} {roots0 : List String} (hS : EStatic2 g1 roots0) :
    ∀ (fuel : Nat) (st : SimpSt) (stack : List (Option String)) (st2 : SimpSt),
      EInv g1 roots0 st stack → elimLoop fuel st stack = some st2 →
      EInv g1 roots0 st2 [] := by
  intro fuel
  induction fuel with
  | zero =>
    intro st stack st2 _ h
    simp [elimLoop] at h
  | succ fuel ih =>
    intro st stack st2 hinv hrun
    rcases stack with _ | ⟨r, rest⟩
    · simp only [elimLoop] at hrun
      injection hrun with h
      subst h
      exact hinv
    · simp only [elimLoop] at hrun
      rcases h1 : elimChildren fuel r st (childrenOfRef st r) with _ | stm
      · rw [h1] at hrun
        exact Option.noConfusion hrun
      · rw [h1] at hrun
        exact ih stm _ st2 (EInv_step hS fuel st r rest stm hinv h1) hrun

theorem sameAdj_WF {g0 g : Graph} (hwf : WF g0) (hadj : SameAdj g0 g)
    (hkeys : keysOf g = keysOf g0) : WF g := by
  apply wf_of_parts
  · rw [hkeys]
    exact hwf.keysNodup
  · intro i hi
    have hi0 : (find? g0 i).isSome := (hadj.isSome i).mp hi
    obtain ⟨j0, hj0⟩ := Option.isSome_iff_exists.mp hi0
    have : find? g i = some { j0 with level := levelOfId g i } := by
      rw [hadj i, hj0]
      rfl
    rw [idOfId_some this]
    exact hwf.idMatch i j0 hj0
  · intro i
    rw [hadj.parents i]
    exact wf_pnodup hwf i
  · intro i
    rw [hadj.children i]
    exact wf_cnodup hwf i
  · intro i
    rw [hadj.parents i]
    exact wf_noRoot hwf i
  · intro i p hp
    rw [hadj.parents i] at hp
    rw [hadj.isSome p]
    exact wf_closedP hwf hp
  · intro i c hc
    rw [hadj.children i] at hc
    rw [hadj.isSome c]
    exact wf_closedC hwf hc
  · intro p c
    rw [hadj.parents c, hadj.children p]
    exact wf_consistent_mem hwf p c
  · intro i
    rw [hadj.children i]
    exact wf_noSelf_mem hwf i

theorem sameAdj_upReach {g0 g : Graph} (hadj : SameAdj g0 g) :
    ∀ a b, UpReach g a b ↔ UpReach g0 a b :=
  upReach_congr (fun x q => by rw [hadj.parents x])

/-- At the start of the elimination pass the invariant holds trivially
relative to the pass's own input. -/
theorem ECore_init (st : SimpSt) (hwf : WF st.g) : ECore st.g st.rootChildren st :=
  ⟨hwf, rfl, fun _ => rfl, fun _ => rfl, fun _ => rfl, rfl,
   fun _ _ h => h, fun _ _ h => h, fun _ _ => Iff.rfl, fun _ => Iff.rfl⟩

theorem EStatic2_of_levelFinal {g0 : Graph} {st1 : SimpSt} (hwf : WF g0)
    (hfin : LInv g0 st1 []) : EStatic2 st1.g st1.rootChildren := by
  refine ⟨⟨sameAdj_WF hwf hfin.adj hfin.keys, ?_⟩, ?_, ?_⟩
  · intro c hc
    rw [hfin.roots] at hc
    exact LInv_final_rootsOne hwf hfin c hc
  · rw [hfin.roots]
    exact rootsOf_nodup hwf.keysNodup
  · intro c hc
    rw [hfin.roots] at hc
    exact (hfin.adj.isSome c).mpr (mem_rootsOf_isSome hwf.keysNodup hc)

theorem EInv_init {g0 : Graph} {st1 : SimpSt} (hwf : WF g0) (hacy : Acyclic g0)
    (hfin : LInv g0 st1 []) : EInv st1.g st1.rootChildren st1 [none] := by
  refine ⟨ECore_init st1 (sameAdj_WF hwf hfin.adj hfin.keys), ?_, ?_⟩
  · intro r hr
    rcases List.mem_cons.mp hr with rfl | h
    · exact Or.inl rfl
    · simp at h
  · intro p c hedge _
    obtain ⟨jp, hjp, _⟩ := hedge
    have hp0 : (find? g0 p).isSome := (hfin.adj.isSome p).mp (by rw [hjp]; rfl)
    obtain ⟨c0, hc0, hcase⟩ := exists_root_above g0 hwf hacy p hp0
    refine Or.inr ⟨none, List.mem_cons_self _ _, Or.inr (Or.inr ⟨rfl, c0, ?_, ?_⟩)⟩
    · rw [hfin.roots]
      exact hc0
    · rcases hcase with rfl | hup
      · exact Or.inl rfl
      · exact Or.inr ((sameAdj_upReach hfin.adj _ _).mpr hup)

/-- With an empty worklist, the pendency escape hatch closes: no surviving
long edge has an alternative route. -/
theorem EInv_final_noRedundant {g1 : Graph} {roots0 : List String} {st2 : SimpSt}
    (hfin : EInv g1 roots0 st2 []) :
    ∀ p c, childRel st2.g p c → levelOfId g1 p + 2 ≤ levelOfId g1 c →
      ¬ AltPath st2.g p c := by
  intro p c hedge hlev
  rcases hfin.pend p c hedge hlev with h | ⟨a, ha, _⟩
  · exact h
  · simp at ha

/-- Decomposition of a successful `simplify` run into its two passes with
their final invariants. -/
theorem simplify_run {g0 : Graph} {F : Nat} {g2 : Graph}
    (hwf : WF g0) (hinit : InitLevels g0) (hacy : Acyclic g0)
    (hrun : simplify F g0 = some g2) :
    ∃ st1 st2, levelPhase F g0 = some st1 ∧ elimLoop F st1 [none] = some st2 ∧
      g2 = st2.g ∧ LInv g0 st1 [] ∧ EInv st1.g st1.rootChildren st2 [] := by
  unfold simplify at hrun
  rcases h1 : levelPhase F g0 with _ | st1
  · rw [h1] at hrun
    exact Option.noConfusion hrun
  · rw [h1] at hrun
    have hrun2 : (match elimLoop F st1 [none] with
        | none => none
        | some st2 => some st2.g) = some g2 := hrun
    rcases h2 : elimLoop F st1 [none] with _ | st2
    · rw [h2] at hrun2
      exact Option.noConfusion hrun2
    · rw [h2] at hrun2
      injection hrun2 with h3
      have hfin := levelPhase_inv g0 hwf hinit hacy h1
      exact ⟨st1, st2, rfl, h2, h3.symm, hfin,
        elimLoop_inv (EStatic2_of_levelFinal hwf hfin) F st1 [none] st2
          (EInv_init hwf hacy hfin) h2⟩

/-! ### Bridging child-direction reachability and upward walks -/

theorem reaches_congr {g g' : Graph}
    (h : ∀ p c, childRel g' p c ↔ childRel g p c) :
    ∀ a b, Reaches g' a b ↔ Reaches g a b := by
  have dir : ∀ {G G' : Graph}, (∀ p c, childRel G' p c → childRel G p c) →
      ∀ a b, Reaches G' a b → Reaches G a b := by
    intro G G' hd a b hr
    induction hr with
    | base h0 => exact Reaches.base (hd _ _ h0)
    | step h0 _ ih => exact Reaches.step (hd _ _ h0) ih
  intro a b
  exact ⟨dir (fun p c => (h p c).mp) a b, dir (fun p c => (h p c).mpr) a b⟩

theorem upReach_reaches_aux {g : Graph} (hwf : WF g) {s b : Option String}
    (h : UpReach g s b) :
    ∀ c p : String, s = some c → b = some p → Reaches g p c := by
  induction h with
  | @base a0 b0 hb =>
    intro c p hs hb2
    subst hs
    subst hb2
    exact Reaches.base ((hwf.consistent p c).mp (parentRel_iff_mem.mpr hb))
  | @step a0 x b0 hx _ ih =>
    intro c p hs hb2
    subst hs
    have hedge : childRel g x c := (hwf.consistent x c).mp (parentRel_iff_mem.mpr hx)
    exact reaches_trans (ih x p rfl hb2) (Reaches.base hedge)

/-- On a well-formed graph, forward reachability is the mirror image of
the upward walks `inv_reachable` performs. -/
theorem reaches_iff_upReach {g : Graph} (hwf : WF g) (p c : String) :
    Reaches g p c ↔ UpReach g (some c) (some p) := by
  constructor
  · intro h
    induction h with
    | @base a b h0 =>
      exact UpReach.base (show some a ∈ parentsOfId g b from
        parentRel_iff_mem.mp ((hwf.consistent a b).mpr h0))
    | @step a x b h0 _ ih =>
      exact upReach_trans ih (UpReach.base (show some a ∈ parentsOfId g x from
        parentRel_iff_mem.mp ((hwf.consistent a x).mpr h0)))
  · intro h
    exact upReach_reaches_aux hwf h c p rfl rfl

theorem sameAdj_name {g0 g : Graph} (h : SameAdj g0 g) (i : String) :
    nameOfId g i = nameOfId g0 i := by
  unfold nameOfId getJob
  rw [h i]
  rcases find? g0 i with _ | j <;> rfl

theorem sameAdj_id {g0 g : Graph} (h : SameAdj g0 g) (i : String) :
    idOfId g i = idOfId g0 i := by
  unfold idOfId getJob
  rw [h i]
  rcases find? g0 i with _ | j <;> rfl

/-! ### A second elimination run over an already-simplified graph is a no-op -/

theorem elimChild_noop {gp : Graph} {roots0 : List String} (hS : EStatic gp roots0)
    (hNR : ∀ p c, childRel gp p c → levelOfId gp p + 2 ≤ levelOfId gp c →
      ¬ AltPath gp p c)
    (F : Nat) (st : SimpSt) (r : Option String) (c : String) (st' : SimpSt)
    (hc : c ∈ childrenOfRef st r)
    (hE : ECore gp roots0 st)
    (hch : ∀ x, childrenOfId st.g x = childrenOfId gp x)
    (hpm : ∀ x q, q ∈ parentsOfId st.g x ↔ q ∈ parentsOfId gp x)
    (hstep : elimChild F st r c = some st') :
    ECore gp roots0 st' ∧ st'.rootChildren = st.rootChildren ∧
    (∀ x, childrenOfId st'.g x = childrenOfId gp x) ∧
    (∀ x q, q ∈ parentsOfId st'.g x ↔ q ∈ parentsOfId gp x) := by
  obtain ⟨hE', hrc', _, _, _, _⟩ := elimChild_core hS F st r c st' hc hE hstep
  refine ⟨hE', hrc', ?_⟩
  simp only [elimChild] at hstep
  by_cases hdist : (1 : Int) < (levelOfId st.g c : Int) - (levelOfRef st r : Int)
  · rw [if_pos hdist] at hstep
    rcases r with _ | a
    · exfalso
      have hcr : c ∈ roots0 := by
        rw [← hE.roots]
        exact hc
      have h1 : levelOfId gp c = 1 := hS.rootsOne c hcr
      have h2 : levelOfId st.g c = levelOfId gp c := hE.levels c
      rw [h2, h1] at hdist
      simp [levelOfRef] at hdist
    · have hc' : c ∈ childrenOfId st.g a := hc
      have hcgp : c ∈ childrenOfId gp a := by
        rw [← hch a]
        exact hc'
      have hlev : levelOfId gp a + 2 ≤ levelOfId gp c := by
        have h1 : levelOfId st.g c = levelOfId gp c := hE.levels c
        have h2 : levelOfRef st (some a) = levelOfId gp a := hE.levels a
        rw [h1, h2] at hdist
        omega
      have hNRac := hNR a c (childRel_iff_mem.mpr hcgp) hlev
      have hpar : some a ∈ parentsOfId st.g c := (wf_consistent_mem hE.wf a c).mpr hc'
      rcases hres : inv_reachable F (removeParentEntry st.g c (some a)) [some c] (some a)
        with _ | b
      · rw [hres] at hstep
        exact Option.noConfusion hstep
      · rcases b with _ | _
        · -- restore: adjacency membership is exactly as before
          rw [hres] at hstep
          injection hstep with hstep2
          subst hstep2
          refine ⟨?_, ?_⟩
          · intro x
            rw [restore_children]
            exact hch x
          · intro x q
            rw [restore_parents_memEq hE.wf hpar x q]
            exact hpm x q
        · -- a removal would contradict that the first run left no redundancy
          exfalso
          obtain ⟨s, hs, hup⟩ := inv_reachable_true F [some c] (some a) hres
          have halt : AltPath st.g a c := by
            rcases List.mem_cons.mp hs with rfl | h
            · exact hup
            · simp at h
          exact hNRac (altPath_mono (fun x => wf_pnodup hE.wf x)
            (fun x q hq => (hpm x q).mp hq) halt)
  · rw [if_neg hdist] at hstep
    injection hstep with hstep2
    subst hstep2
    exact ⟨hch, hpm⟩

theorem elimChildren_noop {gp : Graph} {roots0 : List String} (hS : EStatic gp roots0)
    (hNR : ∀ p c, childRel gp p c → levelOfId gp p + 2 ≤ levelOfId gp c →
      ¬ AltPath gp p c)
    (F : Nat) (r : Option String) :
    ∀ (cs : List String) (st st' : SimpSt),
      (∀ c ∈ cs, c ∈ childrenOfRef st r) →
      ECore gp roots0 st →
      (∀ x, childrenOfId st.g x = childrenOfId gp x) →
      (∀ x q, q ∈ parentsOfId st.g x ↔ q ∈ parentsOfId gp x) →
      elimChildren F r st cs = some st' →
      ECore gp roots0 st' ∧
      (∀ x, childrenOfId st'.g x = childrenOfId gp x) ∧
      (∀ x q, q ∈ parentsOfId st'.g x ↔ q ∈ parentsOfId gp x) := by
  intro cs
  induction cs with
  | nil =>
    intro st st' _ hE hch hpm h
    injection h with h2
    subst h2
    exact ⟨hE, hch, hpm⟩
  | cons c cs ih =>
    intro st st' hcs hE hch hpm h
    simp only [elimChildren] at h
    rcases h1 : elimChild F st r c with _ | stm
    · rw [h1] at h
      exact Option.noConfusion h
    · rw [h1] at h
      obtain ⟨hE1, hrc1, hch1, hpm1⟩ :=
        elimChild_noop hS hNR F st r c stm (hcs c (List.mem_cons_self _ _)) hE hch hpm h1
      refine ih stm st' ?_ hE1 hch1 hpm1 h
      intro c2 hc2
      rcases r with _ | a
      · show c2 ∈ stm.rootChildren
        rw [hrc1]
        exact hcs c2 (List.mem_cons_of_mem _ hc2)
      · show c2 ∈ childrenOfId stm.g a
        rw [hch1 a, ← hch a]
        exact hcs c2 (List.mem_cons_of_mem _ hc2)

theorem elimLoop_noop {gp : Graph} {roots0 : List String} (hS : EStatic gp roots0)
    (hNR : ∀ p c, childRel gp p c → levelOfId gp p + 2 ≤ levelOfId gp c →
      ¬ AltPath gp p c) :
    ∀ (fuel : Nat) (st : SimpSt) (stack : List (Option String)) (st3 : SimpSt),
      ECore gp roots0 st →
      (∀ x, childrenOfId st.g x = childrenOfId gp x) →
      (∀ x q, q ∈ parentsOfId st.g x ↔ q ∈ parentsOfId gp x) →
      elimLoop fuel st stack = some st3 →
      (∀ x, childrenOfId st3.g x = childrenOfId gp x) ∧
      (∀ x q, q ∈ parentsOfId st3.g x ↔ q ∈ parentsOfId gp x) := by
  intro fuel
  induction fuel with
  | zero =>
    intro st stack st3 _ _ _ h
    simp [elimLoop] at h
  | succ fuel ih =>
    intro st stack st3 hE hch hpm hrun
    rcases stack with _ | ⟨r, rest⟩
    · simp only [elimLoop] at hrun
      injection hrun with h2
      subst h2
      exact ⟨hch, hpm⟩
    · simp only [elimLoop] at hrun
      rcases h1 : elimChildren fuel r st (childrenOfRef st r) with _ | stm
      · rw [h1] at hrun
        exact Option.noConfusion hrun
      · rw [h1] at hrun
        obtain ⟨hE1, hch1, hpm1⟩ := elimChildren_noop hS hNR fuel r (childrenOfRef st r)
          st stm (fun c h => h) hE hch hpm h1
        exact ih stm _ st3 hE1 hch1 hpm1 hrun

/-- After a full `simplify` run, the surviving zero-in-degree nodes all have
level 1 (they are the original roots). -/
theorem simplify_roots_level_one {g0 : Graph} {st1 st2 : SimpSt} (hwf : WF g0)
    (hfin : LInv g0 st1 []) (hE : ECore st1.g st1.rootChildren st2) :
    ∀ c ∈ rootsOf st2.g, levelOfId st2.g c = 1 := by
  intro c hc
  obtain ⟨j, hj, hemp⟩ := (mem_rootsOf_iff hE.wf.keysNodup).mp hc
  have hemp1 : parentsOfId st1.g c = [] := (hE.empEq c).mp (by
    rw [parentsOfId_some hj, hemp])
  have hemp0 : parentsOfId g0 c = [] := by
    rw [← hfin.adj.parents c]
    exact hemp1
  have hsm0 : (find? g0 c).isSome := (hfin.adj.isSome c).mp
    ((isSome_of_keysEq hE.keys c).mp (by rw [hj]; rfl))
  obtain ⟨j0, hj0⟩ := Option.isSome_iff_exists.mp hsm0
  have hj0emp : j0.parents = [] := by
    rw [← parentsOfId_some hj0]
    exact hemp0
  have hcr : c ∈ rootsOf g0 := (mem_rootsOf_iff hwf.keysNodup).mpr ⟨j0, hj0, hj0emp⟩
  rw [hE.levels c]
  exact LInv_final_rootsOne hwf hfin c hcr

/-! ### Claim theorems for the simplification passes -/

/-- Claim C1: on a well-formed acyclic graph with all-zero initial levels
(as both loaders produce), a successful `simplify` run preserves
reachability exactly: for every ordered pair of nodes, the output graph
reaches `b` from `a` iff the input graph does; in particular the
elimination pass never disconnects a pair. -/
theorem simplify_preserves_reachability (F : Nat) (g0 g2 : Graph)
    (hwf : WF g0) (hinit : InitLevels g0) (hacy : Acyclic g0)
    (hrun : simplify F g0 = some g2) :
    ∀ a b, Reaches g2 a b ↔ Reaches g0 a b := by
  obtain ⟨st1, st2, _, _, hg2, hfin, hefin⟩ := simplify_run hwf hinit hacy hrun
  subst hg2
  have hwf1 : WF st1.g := sameAdj_WF hwf hfin.adj hfin.keys
  have hwf2 : WF st2.g := hefin.core.wf
  intro a b
  rw [reaches_iff_upReach hwf2 a b, hefin.core.upEq (some b) (some a),
    ← reaches_iff_upReach hwf1 a b]
  exact reaches_congr (fun p c => sameAdj_childRel hfin.adj p c) a b

/-- Witness for `simplify_preserves_reachability`: the diamond graph, pair
`(A, D)` (the direct edge is removed but `D` stays reachable). -/
theorem simplify_preserves_reachability_witness :
    Reaches ((simplify 30 exDiamond).getD default) "A" "D" ↔
      Reaches exDiamond "A" "D" := by
  have hrun : simplify 30 exDiamond = some ((simplify 30 exDiamond).getD default) := by
    decide
  exact simplify_preserves_reachability 30 exDiamond _
    (wf_of_wfCheck (by decide)) (init_of_initCheck (by decide))
    (@acyclic_of_levelCert exDiamond lvDiamond (by decide)) hrun "A" "D"

/-- Claim C3: after the level pass, every recorded edge `p→c` satisfies
`c.level ≥ p.level + 1`, and the inequality still holds for every edge
surviving the elimination pass (levels are frozen there and edges only
disappear). -/
theorem level_gap_edges (F : Nat) (g0 : Graph) (st1 : SimpSt) (g2 : Graph)
    (hwf : WF g0) (hinit : InitLevels g0) (hacy : Acyclic g0)
    (hrun1 : levelPhase F g0 = some st1) (hrun2 : simplify F g0 = some g2) :
    (∀ p c, childRel st1.g p c → levelOfId st1.g p + 1 ≤ levelOfId st1.g c) ∧
    (∀ p c, childRel g2 p c → levelOfId g2 p + 1 ≤ levelOfId g2 c) := by
  have hfin := levelPhase_inv g0 hwf hinit hacy hrun1
  have hgap1 : ∀ p c, childRel st1.g p c →
      levelOfId st1.g p + 1 ≤ levelOfId st1.g c := by
    intro p c he
    exact LInv_final_gap hfin p c ((sameAdj_childRel hfin.adj p c).mp he)
  refine ⟨hgap1, ?_⟩
  obtain ⟨st1', st2, hrun1', _, hg2, _, hefin⟩ := simplify_run hwf hinit hacy hrun2
  have heq : st1 = st1' := Option.some.inj (hrun1.symm.trans hrun1')
  subst heq
  subst hg2
  intro p c he
  have he1 : childRel st1.g p c :=
    childRel_iff_mem.mpr (hefin.core.cmem p c (childRel_iff_mem.mp he))
  rw [hefin.core.levels p, hefin.core.levels c]
  exact hgap1 p c he1

/-- Witness for `level_gap_edges`: diamond edges `A→B` after the level pass
and `B→D` after full simplification. -/
theorem level_gap_edges_witness :
    levelOfId ((levelPhase 30 exDiamond).getD default).g "A" + 1 ≤
      levelOfId ((levelPhase 30 exDiamond).getD default).g "B" ∧
    levelOfId ((simplify 30 exDiamond).getD default) "B" + 1 ≤
      levelOfId ((simplify 30 exDiamond).getD default) "D" := by
  have h := level_gap_edges 30 exDiamond ((levelPhase 30 exDiamond).getD default)
    ((simplify 30 exDiamond).getD default) (wf_of_wfCheck (by decide))
    (init_of_initCheck (by decide))
    (@acyclic_of_levelCert exDiamond lvDiamond (by decide)) (by decide) (by decide)
  exact ⟨h.1 "A" "B" (childRelB_iff.mp (by decide)),
    h.2 "B" "D" (childRelB_iff.mp (by decide))⟩

/-- Claim C4: after a complete `simplify` run, running the elimination pass
a second time (roots recomputed and the worklist reseeded with the
synthetic root, as the source would) removes no further edge: the edge set
of the second run's result equals the edge set after the first run. -/
theorem elimination_idempotent (F F2 : Nat) (g0 g2 : Graph) (st3 : SimpSt)
    (hwf : WF g0) (hinit : InitLevels g0) (hacy : Acyclic g0)
    (hrun : simplify F g0 = some g2)
    (hrun2 : elimLoop F2 ⟨rootsOf g2, g2⟩ [none] = some st3) :
    ∀ p c, childRel st3.g p c ↔ childRel g2 p c := by
  obtain ⟨st1, st2, _, _, hg2, hfin, hefin⟩ := simplify_run hwf hinit hacy hrun
  subst hg2
  have hwf2 : WF st2.g := hefin.core.wf
  have hS : EStatic st2.g (rootsOf st2.g) :=
    ⟨hwf2, simplify_roots_level_one hwf hfin hefin.core⟩
  have hNR : ∀ p c, childRel st2.g p c →
      levelOfId st2.g p + 2 ≤ levelOfId st2.g c → ¬ AltPath st2.g p c := by
    intro p c he hl
    refine EInv_final_noRedundant hefin p c he ?_
    rw [← hefin.core.levels p, ← hefin.core.levels c]
    exact hl
  obtain ⟨hch3, _⟩ := elimLoop_noop hS hNR F2 ⟨rootsOf st2.g, st2.g⟩ [none] st3
    (ECore_init ⟨rootsOf st2.g, st2.g⟩ hwf2) (fun _ => rfl) (fun _ _ => Iff.rfl) hrun2
  intro p c
  rw [childRel_iff_mem, childRel_iff_mem, hch3 p]

/-- Witness for `elimination_idempotent`: the diamond after simplification,
pair `(A, D)`. -/
theorem elimination_idempotent_witness :
    childRel ((elimLoop 30
        ⟨rootsOf ((simplify 30 exDiamond).getD default),
         (simplify 30 exDiamond).getD default⟩ [none]).getD default).g "A" "D" ↔
      childRel ((simplify 30 exDiamond).getD default) "A" "D" := by
  have hrun : simplify 30 exDiamond = some ((simplify 30 exDiamond).getD default) := by
    decide
  have hrun2 : elimLoop 30
      ⟨rootsOf ((simplify 30 exDiamond).getD default),
       (simplify 30 exDiamond).getD default⟩ [none] =
      some ((elimLoop 30
        ⟨rootsOf ((simplify 30 exDiamond).getD default),
         (simplify 30 exDiamond).getD default⟩ [none]).getD default) := by
    decide
  exact elimination_idempotent 30 30 exDiamond ((simplify 30 exDiamond).getD default) _
    (wf_of_wfCheck (by decide)) (init_of_initCheck (by decide))
    (@acyclic_of_levelCert exDiamond lvDiamond (by decide)) hrun hrun2 "A" "D"

/-- Claim C7: bidirectional adjacency consistency (`p ∈ c.parents` iff
`c ∈ p.children`) is preserved by every core operation: by
`remove_xforms`, by the level pass, and by the elimination pass including
its tentative deletion / restoration, given a well-formed input. -/
theorem consistency_preserved (g0 : Graph) (xs : List String) (F : Nat)
    (st1 : SimpSt) (g2 : Graph)
    (hwf : WF g0) (hinit : InitLevels g0) (hacy : Acyclic g0)
    (hrun1 : levelPhase F g0 = some st1) (hrun2 : simplify F g0 = some g2) :
    (∀ p c, parentRel (remove_xforms g0 xs) p c ↔
      childRel (remove_xforms g0 xs) p c) ∧
    (∀ p c, parentRel st1.g p c ↔ childRel st1.g p c) ∧
    (∀ p c, parentRel g2 p c ↔ childRel g2 p c) := by
  have hfin := levelPhase_inv g0 hwf hinit hacy hrun1
  refine ⟨(remove_xforms_results g0 xs hwf).1.consistent,
    (sameAdj_WF hwf hfin.adj hfin.keys).consistent, ?_⟩
  obtain ⟨st1', st2, _, _, hg2, _, hefin⟩ := simplify_run hwf hinit hacy hrun2
  subst hg2
  exact hefin.core.wf.consistent

/-- Witness for `consistency_preserved`: the diamond with `B` filtered out,
checked at the pair `(A, D)` in all three result graphs. -/
theorem consistency_preserved_witness :
    (parentRel (remove_xforms exDiamond ["B"]) "A" "D" ↔
      childRel (remove_xforms exDiamond ["B"]) "A" "D") ∧
    (parentRel ((levelPhase 30 exDiamond).getD default).g "A" "B" ↔
      childRel ((levelPhase 30 exDiamond).getD default).g "A" "B") ∧
    (parentRel ((simplify 30 exDiamond).getD default) "A" "B" ↔
      childRel ((simplify 30 exDiamond).getD default) "A" "B") := by
  have h := consistency_preserved exDiamond ["B"] 30
    ((levelPhase 30 exDiamond).getD default) ((simplify 30 exDiamond).getD default)
    (wf_of_wfCheck (by decide)) (init_of_initCheck (by decide))
    (@acyclic_of_levelCert exDiamond lvDiamond (by decide)) (by decide) (by decide)
  exact ⟨h.1 "A" "D", h.2.1 "A" "B", h.2.2 "A" "B"⟩

/-- Claim C10: frame of `simplify` — the key set of the returned mapping is
exactly the input's (no node added or removed; in particular the synthetic
root, which lives outside the dict, never becomes a key), every node keeps
its `id` and `name`, and no parents list ever references the synthetic
root (its linkage is children-only), so only levels and adjacency of
pre-existing nodes change. -/
theorem simplify_frame (F : Nat) (g0 g2 : Graph)
    (hwf : WF g0) (hinit : InitLevels g0) (hacy : Acyclic g0)
    (hrun : simplify F g0 = some g2) :
    keysOf g2 = keysOf g0 ∧
    (∀ i, nameOfId g2 i = nameOfId g0 i) ∧
    (∀ i, idOfId g2 i = idOfId g0 i) ∧
    (∀ i, none ∉ parentsOfId g2 i) := by
  obtain ⟨st1, st2, _, _, hg2, hfin, hefin⟩ := simplify_run hwf hinit hacy hrun
  subst hg2
  refine ⟨?_, ?_, ?_, ?_⟩
  · rw [hefin.core.keys, hfin.keys]
  · intro i
    rw [hefin.core.names i, sameAdj_name hfin.adj i]
  · intro i
    rw [hefin.core.ids i, sameAdj_id hfin.adj i]
  · intro i
    exact wf_noRoot hefin.core.wf i

/-- Witness for `simplify_frame`: the diamond graph, with the per-node
facts read off at `A` and `D`. -/
theorem simplify_frame_witness :
    keysOf ((simplify 30 exDiamond).getD default) = keysOf exDiamond ∧
    nameOfId ((simplify 30 exDiamond).getD default) "A" = nameOfId exDiamond "A" ∧
    idOfId ((simplify 30 exDiamond).getD default) "A" = idOfId exDiamond "A" ∧
    none ∉ parentsOfId ((simplify 30 exDiamond).getD default) "D" := by
  have h := simplify_frame 30 exDiamond ((simplify 30 exDiamond).getD default)
    (wf_of_wfCheck (by decide)) (init_of_initCheck (by decide))
    (@acyclic_of_levelCert exDiamond lvDiamond (by decide)) (by decide)
  exact ⟨h.1, h.2.1 "A", h.2.2.1 "A", h.2.2.2 "D"⟩

end Dag2Dot
